import Mathlib

/-!
Verification of the OCR text-extraction service (Go, `main.go`, final revision).

The development shallowly embeds the pure core of the service:
the Tesseract-output normalizer, the noise filter, the deduplicator,
the text-region geometry, and the semantic reconciler
(`filterTextItemsAdvanced` / `findBestMatchAdvanced` /
`calculateMatchScore` / `levenshteinDistance`),
plus a model of the HTTP error envelope and of the recognition adapter
viewed against an abstract engine oracle.

Modelling conventions:
* Go strings are Lean `String`s; operations that Go performs on the raw
  UTF-8 bytes (`len`, indexing, slicing, the Levenshtein table) are
  modelled through an explicit UTF-8 encoder `goBytes`, so byte-level
  and rune-level behaviour are both captured faithfully.
* Go `float64` score arithmetic is modelled exactly over `ℚ`; every
  value that occurs (0.3, 0.8, 0.85, 0.9, ratios of small naturals) is
  exactly representable, and no comparison in the source sits on a
  floating-point rounding boundary.
* `unicode.ToLower` / `strings.EqualFold` are modelled by ASCII case
  mapping (identity on all other code points); every cased character
  the service manipulates is ASCII, and Hangul has no case.
* External collaborators (gocv contours, the Tesseract subprocess) are
  modelled as inputs / oracles, exactly at the interface the source
  consumes them.
-/

/-- Character predicate of `unicode.IsSpace`: the Latin-1 white space
characters plus the Unicode `White_Space` code points. -/
def goIsSpace (c : Char) : Bool :=
  c == ' ' || c == '\t' || c == '\n' || c.toNat == 0xB || c.toNat == 0xC ||
  c == '\r' || c.toNat == 0x85 || c.toNat == 0xA0 || c.toNat == 0x1680 ||
  (0x2000 ≤ c.toNat && c.toNat ≤ 0x200A) || c.toNat == 0x2028 ||
  c.toNat == 0x2029 || c.toNat == 0x202F || c.toNat == 0x205F ||
  c.toNat == 0x3000

/-- Model of `strings.TrimSpace`: drop white space from both ends. -/
def trimSpace (s : String) : String :=
  ⟨((s.data.dropWhile goIsSpace).reverse.dropWhile goIsSpace).reverse⟩

/-- ASCII model of `unicode.ToLower` on one character (identity on all
non-ASCII code points; the cased characters handled by the service are
ASCII). -/
def goToLowerChar (c : Char) : Char :=
  if 'A' ≤ c ∧ c ≤ 'Z' then Char.ofNat (c.toNat + 32) else c

/-- Model of `strings.ToLower`. -/
def goToLower (s : String) : String :=
  ⟨s.data.map goToLowerChar⟩

/-- UTF-8 encoding of one code point (bytes as `Nat`, each < 256). -/
def charUtf8 (c : Char) : List Nat :=
  let v := c.toNat
  if v < 0x80 then [v]
  else if v < 0x800 then [0xC0 + v / 64, 0x80 + v % 64]
  else if v < 0x10000 then
    [0xE0 + v / 4096, 0x80 + v / 64 % 64, 0x80 + v % 64]
  else
    [0xF0 + v / 262144, 0x80 + v / 4096 % 64, 0x80 + v / 64 % 64,
      0x80 + v % 64]

/-- The UTF-8 byte sequence underlying a Go string. -/
def goBytes (s : String) : List Nat :=
  (s.data.map charUtf8).flatten

/-- Model of Go `len(s)`: the number of UTF-8 bytes. -/
def goLen (s : String) : Nat :=
  (goBytes s).length

/-- Splits a character list at every occurrence of `sep`; model of
`strings.Split` with a one-character separator (empty fields kept). -/
def splitChar (sep : Char) : List Char → List (List Char)
  | [] => [[]]
  | c :: rest =>
    match splitChar sep rest with
    | [] => [[]]
    | h :: t => if c = sep then [] :: h :: t else (c :: h) :: t

/-- Model of `strings.Split(s, sep)` for a one-character separator. -/
def goSplit (s : String) (sep : Char) : List String :=
  (splitChar sep s.data).map (⟨·⟩)

/-- Splits a character list at every character satisfying `f`,
keeping the (possibly empty) fields between the separators. -/
def splitByPred (f : Char → Bool) : List Char → List (List Char)
  | [] => [[]]
  | c :: rest =>
    match splitByPred f rest with
    | [] => [[]]
    | h :: t => if f c then [] :: h :: t else (c :: h) :: t

/-- Model of `strings.FieldsFunc`: split on characters satisfying `f`
and drop the empty fields. -/
def goFieldsFunc (s : String) (f : Char → Bool) : List String :=
  ((splitByPred f s.data).filter (· ≠ [])).map (⟨·⟩)

/-- Decides whether `pat` occurs at the head of `l`. -/
def listStartsWith : List Char → List Char → Bool
  | [], _ => true
  | _ :: _, [] => false
  | a :: as, b :: bs => a == b && listStartsWith as bs

/-- Decides whether `pat` occurs somewhere inside `l`. -/
def listHasInfix (pat : List Char) : List Char → Bool
  | [] => listStartsWith pat []
  | c :: rest => listStartsWith pat (c :: rest) || listHasInfix pat rest

/-- Model of `strings.Contains(s, t)` (for valid UTF-8 the byte-level
and character-level occurrence relations coincide, UTF-8 being
self-synchronizing). -/
def goContains (s t : String) : Bool :=
  listHasInfix t.data s.data

/-- Model of `strings.EqualFold` (ASCII simple folding, see above). -/
def goEqualFold (a b : String) : Bool :=
  goToLower a == goToLower b

/-- Model of `strings.Trim(s, cutset)`: drop characters of `cutset`
from both ends. -/
def goTrimCutset (s : String) (cutset : List Char) : String :=
  ⟨((s.data.dropWhile (cutset.contains ·)).reverse.dropWhile
      (cutset.contains ·)).reverse⟩

/-- The atomic output unit of the service (`TextElement` in the source). -/
structure TextElement where
  Text : String
  X : Int
  Y : Int
deriving DecidableEq, Repr

/-- Transcription of the helper `min3`. -/
def min3 (a b c : Nat) : Nat :=
  if a < b ∧ a < c then a else if b < c then b else c

/-- One inner pass of the Levenshtein dynamic-programming loop:
given the value `left` just computed in the current row, the remaining
bytes `ys` of the second string, and the window of the previous row
starting at the matching column, produce the rest of the current row. -/
def levRowAux (x : Nat) : Nat → List Nat → List Nat → List Nat
  | left, y :: ys, pj1 :: pj :: ps =>
    let cost := if x = y then 0 else 1
    let cur := min3 (pj + 1) (left + 1) (pj1 + cost)
    cur :: levRowAux x cur ys (pj :: ps)
  | _, _, _ => []

/-- The outer Levenshtein loop: fold the rows of the table over the
bytes of the first string, starting from row `0 .. n`. -/
def levRows (b : List Nat) : List Nat → Nat → List Nat → List Nat
  | [], _, prev => prev
  | x :: xs, i, prev => levRows b xs (i + 1) (i :: levRowAux x i b prev)

/-- Transcription of `levenshteinDistance`: the standard O(m·n)
dynamic-programming table, computed over the raw UTF-8 bytes of the two
strings (Go `len` and `str[i]` are byte operations). -/
def levenshteinDistance (str1 str2 : String) : Nat :=
  let a := goBytes str1
  let b := goBytes str2
  (levRows b a 1 (List.range (b.length + 1))).getLastD 0

/-- Mathematical Levenshtein edit distance over byte lists, by the
textbook recurrence; reference definition used to state that the table
in the source computes the edit distance. -/
def editDist : List Nat → List Nat → Nat
  | [], ys => ys.length
  | _ :: xs, [] => xs.length + 1
  | x :: xs, y :: ys =>
    min3 (editDist xs (y :: ys) + 1) (editDist (x :: xs) ys + 1)
      (editDist xs ys + if x = y then 0 else 1)

/-- Transcription of `calculateTextSimilarity` (scores over `ℚ`). -/
def calculateTextSimilarity (str1 str2 : String) : ℚ :=
  if str1 = str2 then 1
  else if goLen str1 = 0 ∨ goLen str2 = 0 then 0
  else 1 - (levenshteinDistance str1 str2 : ℚ) / (max (goLen str1) (goLen str2) : ℚ)

/-- Transcription of `isWordBoundaryMatch`: split the source on
space, bar, hyphen, comma and period; a word matches if it is
fold-equal to the target or has edit-distance similarity above 0.8. -/
def isWordBoundaryMatch (target source : String) : Bool :=
  let sourceWords := goFieldsFunc source fun c =>
    c == ' ' || c == '|' || c == '-' || c == ',' || c == '.'
  sourceWords.any fun w =>
    let w := trimSpace w
    goEqualFold w target ||
      decide ((0.8 : ℚ) < calculateTextSimilarity (goToLower w) (goToLower target))

/-- Transcription of `calculateMatchScore`. -/
def calculateMatchScore (target source : String) : ℚ :=
  if target = source then 1
  else if goContains source target || goContains target source then 0.9
  else if isWordBoundaryMatch target source then 0.85
  else
    let similarity := calculateTextSimilarity target source
    let lengthRatio : ℚ :=
      (min (goLen target) (goLen source) : ℚ) / (max (goLen target) (goLen source) : ℚ)
    similarity * lengthRatio

/-- Transcription of `findBestMatchAdvanced`: scan the items, keeping
the first strict improvement of the score whenever it also exceeds the
0.3 threshold.  (Go ≥ 1.22 loop semantics: `&item` captures the value
of the current iteration.) -/
def findBestMatchAdvanced (targetText : String) (items : List TextElement) :
    Option TextElement :=
  let targetLower := goToLower targetText
  (items.foldl
    (fun (acc : ℚ × Option TextElement) item =>
      let score := calculateMatchScore targetLower (goToLower item.Text)
      if acc.1 < score ∧ (0.3 : ℚ) < score then (score, some item) else acc)
    (0, none)).2

/-- Transcription of `filterTextItemsAdvanced`: split the category
answer on commas, trim whitespace and surrounding quotes, skip empty
and already-seen candidates, and emit each matched candidate with the
coordinates of its best-matching original element. -/
def filterTextItemsAdvanced (originalItems : List TextElement)
    (filteredTexts : String) : List TextElement :=
  if filteredTexts = "NONE" ∨ trimSpace filteredTexts = "" then []
  else
    ((goSplit filteredTexts ',').foldl
      (fun (st : List String × List TextElement) filteredText =>
        let cleanText := goTrimCutset (trimSpace filteredText) ['"', '\'']
        if cleanText = "" ∨ st.1.contains cleanText then st
        else
          match findBestMatchAdvanced cleanText originalItems with
          | some bestMatch =>
            (cleanText :: st.1,
              st.2 ++ [⟨cleanText, bestMatch.X, bestMatch.Y⟩])
          | none => st)
      ([], [])).2

/-- Strips the literal `pat` from the head of `l`, returning the rest. -/
def stripLit : List Char → List Char → Option (List Char)
  | [], l => some l
  | _ :: _, [] => none
  | p :: ps, c :: cs => if p = c then stripLit ps cs else none

/-- Matcher for the regular expression
`Warning: Invalid resolution \d+ dpi\. Using \d+ instead\.`
at the head of the input; returns the remainder after the match. -/
def matchResolutionWarning (l : List Char) : Option (List Char) :=
  match stripLit "Warning: Invalid resolution ".data l with
  | none => none
  | some l1 =>
    if l1.takeWhile Char.isDigit = [] then none
    else
      match stripLit " dpi. Using ".data (l1.dropWhile Char.isDigit) with
      | none => none
      | some l2 =>
        if l2.takeWhile Char.isDigit = [] then none
        else stripLit " instead.".data (l2.dropWhile Char.isDigit)

/-- Matcher for the regular expression `Estimating resolution as \d+`. -/
def matchEstimating (l : List Char) : Option (List Char) :=
  match stripLit "Estimating resolution as ".data l with
  | none => none
  | some l1 =>
    if l1.takeWhile Char.isDigit = [] then none
    else some (l1.dropWhile Char.isDigit)

/-- Worker for `replaceAllWith`, structurally recursive on a fuel
argument so that it evaluates inside the kernel; with fuel at least the
length of the input the fuel never runs out (each step consumes at
least one character). -/
def replaceAllWithFuel (m : List Char → Option (List Char)) :
    Nat → List Char → List Char
  | 0, _ => []
  | _, [] => []
  | fuel + 1, c :: rest =>
    match m (c :: rest) with
    | some rem =>
      if rem.length < rest.length + 1 then replaceAllWithFuel m fuel rem
      else c :: replaceAllWithFuel m fuel rest
    | none => c :: replaceAllWithFuel m fuel rest

/-- Model of `regexp.ReplaceAllString(…, "")`: delete every leftmost
non-overlapping match and continue after it.  (The length guard makes
the recursion well-fuelled; both matchers above always consume at least
one character, so the guard is provably always taken when a match
exists.) -/
def replaceAllWith (m : List Char → Option (List Char)) (l : List Char) :
    List Char :=
  replaceAllWithFuel m l.length l

/-- Worker for `delMarkerToEol`, structurally recursive on fuel. -/
def delMarkerToEolFuel (marker : List Char) :
    Nat → List Char → List Char
  | 0, _ => []
  | _, [] => []
  | fuel + 1, c :: rest =>
    if listStartsWith marker (c :: rest) ∧ c ≠ '\n' then
      delMarkerToEolFuel marker fuel ((c :: rest).dropWhile (· ≠ '\n'))
    else c :: delMarkerToEolFuel marker fuel rest

/-- Model of `regexp.ReplaceAllString` for the patterns `Warning:.*` and
`Error:.*`: a dot matches everything except a newline, so each match
deletes from the marker to the end of its line. -/
def delMarkerToEol (marker : List Char) (l : List Char) : List Char :=
  delMarkerToEolFuel marker l.length l

/-- The four warning-removal passes of `cleanTesseractOutput`, in the
order the source applies them. -/
def removeWarnings (s : String) : String :=
  let l1 := replaceAllWith matchResolutionWarning s.data
  let l2 := replaceAllWith matchEstimating l1
  let l3 := delMarkerToEol "Warning:".data l2
  let l4 := delMarkerToEol "Error:".data l3
  ⟨l4⟩

/-- The warning-free, trimmed, non-empty lines of the raw engine output
(steps 1–2 of `cleanTesseractOutput`). -/
def validLinesOf (rawText : String) : List String :=
  ((goSplit (removeWarnings rawText) '\n').map trimSpace).filter (· ≠ "")

/-- Model of `strings.Join(g, " ")`. -/
def joinSpace (g : List String) : String :=
  String.intercalate " " g

/-- Model of `strings.Join(units, " | ")`. -/
def joinBar (units : List String) : String :=
  String.intercalate " | " units

/-- One step of the grouping loop of `cleanTesseractOutput`:
state is (processed lines, pending group of short lines). -/
def groupStep (st : List String × List String) (line : String) :
    List String × List String :=
  if goLen line ≤ 10 then (st.1, st.2 ++ [line])
  else if st.2 = [] then (st.1 ++ [line], [])
  else (st.1 ++ [joinSpace st.2, line], [])

/-- The grouped units of `cleanTesseractOutput` (step 4), including the
final flush of a pending short-line group. -/
def processedLinesOf (validLines : List String) : List String :=
  let st := validLines.foldl groupStep ([], [])
  if st.2 = [] then st.1 else st.1 ++ [joinSpace st.2]

/-- Transcription of `cleanTesseractOutput`. -/
def cleanTesseractOutput (rawText : String) : String :=
  if rawText = "" then ""
  else
    match validLinesOf rawText with
    | [] => ""
    | [l] => l
    | _ :: _ :: _ => joinBar (processedLinesOf (validLinesOf rawText))

/-- The significance allow-list of `isSignificantShortText`, in source
order. -/
def significantShorts : List String :=
  ["안", "좋", "나", "다", "를", "을", "의", "에", "로", "과", "와",
   "OK", "NO", "ON", "UP", "GO", "IN", "TO", "AT", "BY",
   "@", "#", "$", "%", "&", "*", "+", "-", "=", "?", "!"]

/-- Transcription of `isSignificantShortText`: purely-numeric strings
(regular expression `^\d+$`) or membership in the fixed allow-list. -/
def isSignificantShortText (text : String) : Bool :=
  (!(text = "") && text.data.all Char.isDigit) ||
    significantShorts.any (fun significant => text == significant)

/-- Model of `unicode.IsLetter`, restricted to the alphabets the
service processes: ASCII letters, Hangul syllables and Hangul jamo
(identity of the claims never depends on other scripts). -/
def goIsLetter (c : Char) : Bool :=
  c.isAlpha || (0xAC00 ≤ c.toNat && c.toNat ≤ 0xD7A3) ||
    (0x1100 ≤ c.toNat && c.toNat ≤ 0x11FF) ||
    (0x3131 ≤ c.toNat && c.toNat ≤ 0x318E)

/-- Model of `unicode.IsDigit` (ASCII digits; the decimal digits the
service processes are ASCII). -/
def goIsDigit (c : Char) : Bool :=
  c.isDigit

/-- Transcription of `isOnlySpecialChars`. -/
def isOnlySpecialChars (text : String) : Bool :=
  !(text.data.any goIsLetter) && !(text.data.any goIsDigit) && !(text = "")

/-- Transcription of `isRepeatingPattern`: operates on the raw bytes of
the string (Go `text[0]`, `text[:i]`, `len`), except that the all-same
scan ranges over the runes, comparing `byte(char)` — the low byte of
each rune — against the first byte. -/
def isRepeatingPattern (text : String) : Bool :=
  let bs := goBytes text
  if bs.length < 3 then false
  else
    let firstByte := bs.headD 0
    if text.data.all (fun char => char.toNat % 256 == firstByte) then true
    else
      ((List.range (bs.length / 3)).map (· + 1)).any fun i =>
        ((List.replicate (bs.length / i) (bs.take i)).flatten == bs) &&
          decide (i * 3 ≤ bs.length)

/-- The per-element keep decision of `filterValidTexts`, in source
order: non-empty, significant if short, not symbols-only, not a
repeating pattern. -/
def keepTextElement (elem : TextElement) : Bool :=
  let text := trimSpace elem.Text
  if goLen text < 1 then false
  else if goLen text ≤ 2 && !isSignificantShortText text then false
  else if isOnlySpecialChars text then false
  else if isRepeatingPattern text then false
  else true

/-- Transcription of `filterValidTexts`. -/
def filterValidTexts (elements : List TextElement) : List TextElement :=
  elements.filter keepTextElement

/-- Transcription of `isDuplicateText`. -/
def isDuplicateText (text : String) (existing : List TextElement) : Bool :=
  existing.any fun elem =>
    goToLower (trimSpace elem.Text) == goToLower (trimSpace text)

/-- Transcription of `removeDuplicates`: the `seen` map is modelled by
the list of keys inserted so far. -/
def removeDuplicates (elements : List TextElement) : List TextElement :=
  (elements.foldl
    (fun (st : List String × List TextElement) elem =>
      let key := goToLower (trimSpace elem.Text)
      if !st.1.contains key && !(key = "") then (key :: st.1, st.2 ++ [elem])
      else st)
    ([], [])).2

/-- Transcription of `isValidText` (final revision): non-blank after
trimming, at most 200 runes, and containing a letter or a digit. -/
def isValidText (text : String) : Bool :=
  if goLen text < 1 then false
  else
    let trimmed := trimSpace text
    if goLen trimmed < 1 then false
    else if 200 < trimmed.data.length then false
    else trimmed.data.any fun r => goIsLetter r || goIsDigit r

/-- Model of Go `image.Rectangle`. -/
structure GoRect where
  minX : Int
  minY : Int
  maxX : Int
  maxY : Int
deriving DecidableEq

/-- Go `Rectangle.Dx`. -/
def GoRect.dx (r : GoRect) : Int := r.maxX - r.minX

/-- Go `Rectangle.Dy`. -/
def GoRect.dy (r : GoRect) : Int := r.maxY - r.minY

/-- Model of `image.Rect(x0, y0, x1, y1)`, which swaps the corners when
they are given in the wrong order. -/
def mkGoRect (x0 y0 x1 y1 : Int) : GoRect :=
  ⟨min x0 x1, min y0 y1, max x0 x1, max y0 y1⟩

/-- Abstraction of one gocv contour as the source consumes it: its
bounding rectangle and its (float64, modelled exact) area. -/
structure Contour where
  rect : GoRect
  area : ℚ
deriving DecidableEq

/-- Transcription of the filtering and padding logic of
`detectTextRegions` (final revision): the contour extraction itself is
external, so the contour list is an input. -/
def detectTextRegions (contours : List Contour) (cols rows : Int) :
    List GoRect :=
  contours.filterMap fun c =>
    if 100 < c.area ∧ c.area < 50000 then
      if 15 < c.rect.dx ∧ 8 < c.rect.dy ∧ c.rect.dy < 100 then
        some (mkGoRect (max 0 (c.rect.minX - 5)) (max 0 (c.rect.minY - 5))
          (min cols (c.rect.maxX + 5)) (min rows (c.rect.maxY + 5)))
      else none
    else none

/-- The centroid the source assigns to a region element:
`region.Min.X + region.Dx()/2`, with Go (truncated) integer division. -/
def regionCenter (r : GoRect) : Int × Int :=
  (r.minX + Int.tdiv r.dx 2, r.minY + Int.tdiv r.dy 2)

/-- Model of `ExtractTexts` (final revision): image decoding and the
recognition engine are external, so the image size, the contours, the
full-image recognition result and the per-region recognition results
are inputs; everything downstream is the transcribed pipeline. -/
def extractTexts (cols rows : Int) (contours : List Contour)
    (fullText : String) (regionText : GoRect → String) : List TextElement :=
  let base :=
    if fullText ≠ "" ∧ cleanTesseractOutput fullText ≠ "" ∧
        isValidText (cleanTesseractOutput fullText) then
      [⟨cleanTesseractOutput fullText, Int.tdiv cols 2, Int.tdiv rows 2⟩]
    else []
  let withRegions :=
    (detectTextRegions contours cols rows).foldl
      (fun results region =>
        let cleanedText := cleanTesseractOutput (regionText region)
        if cleanedText ≠ "" ∧ isValidText cleanedText ∧
            ¬ isDuplicateText cleanedText results then
          results ++
            [⟨cleanedText, (regionCenter region).1, (regionCenter region).2⟩]
        else results)
      base
  filterValidTexts (removeDuplicates withRegions)

/-- One invocation of the external engine, as the source issues it:
a language set and a page-segmentation mode. -/
structure EngineCall where
  langs : String
  psm : String
deriving DecidableEq

/-- Transcription of `runTesseract` (final revision) against an engine
oracle: the language set is hard-coded to `kor+eng`; a failing
invocation (`none`) yields the empty string. -/
def runTesseract (engine : EngineCall → Option String) (psm : String) : String :=
  match engine ⟨"kor+eng", psm⟩ with
  | none => ""
  | some output => trimSpace output

/-- Transcription of `recognizeFullImage`: try PSM modes 3 then 6,
returning the first non-blank result, else the empty string. -/
def recognizeFullImage (engine : EngineCall → Option String) : String :=
  (["3", "6"].foldl
    (fun acc psm =>
      match acc with
      | some t => some t
      | none =>
        let text := runTesseract engine psm
        if text ≠ "" ∧ 0 < goLen (trimSpace text) then some text else none)
    none).getD ""

/-- A Go slice value: `nil` or a (possibly empty) backing list.
`encoding/json` distinguishes the two. -/
inductive GoSlice (α : Type) where
  | nil : GoSlice α
  | mk : List α → GoSlice α
deriving DecidableEq

/-- The response envelope of `/image/extract` (`OCRResponse`), with the
slice-ness of `text_list` made explicit. -/
structure OCRResponse where
  Success : Bool
  TextList : GoSlice TextElement
  TotalCount : Int
  Message : String
deriving DecidableEq

/-- One hexadecimal digit, lower case. -/
def hexDigit (n : Nat) : Char :=
  if n < 10 then Char.ofNat (48 + n) else Char.ofNat (87 + n)

/-- Model of the string escaping of `encoding/json` (as used by
gin.Context.JSON): quote, backslash, newline, carriage return, tab, the
HTML-escaped characters, and `\u00XX` for remaining control bytes. -/
def jsonEscapeChar (c : Char) : String :=
  if c = '"' then "\\\""
  else if c = '\\' then "\\\\"
  else if c = '\n' then "\\n"
  else if c = '\r' then "\\r"
  else if c = '\t' then "\\t"
  else if c = '<' then "\\u003c"
  else if c = '>' then "\\u003e"
  else if c = '&' then "\\u0026"
  else if c.toNat < 0x20 then
    "\\u00" ++ String.singleton (hexDigit (c.toNat / 16)) ++
      String.singleton (hexDigit (c.toNat % 16))
  else String.singleton c

/-- JSON rendering of a string value. -/
def jsonString (s : String) : String :=
  "\"" ++ String.join (s.data.map jsonEscapeChar) ++ "\""

/-- JSON rendering of one `TextElement`, following its field tags. -/
def jsonOfTextElement (e : TextElement) : String :=
  "\x7b\"text\":" ++ jsonString e.Text ++ ",\"x\":" ++ toString e.X ++
    ",\"y\":" ++ toString e.Y ++ "\x7d"

/-- JSON rendering of the `text_list` field: a nil slice serializes as
`null`, a non-nil slice as an array. -/
def jsonOfTextList : GoSlice TextElement → String
  | .nil => "null"
  | .mk es => "[" ++ String.intercalate "," (es.map jsonOfTextElement) ++ "]"

/-- Model of `json.Marshal` on `OCRResponse`, following the field tags
(`message` carries `omitempty`). -/
def marshalOCRResponse (r : OCRResponse) : String :=
  "\x7b\"success\":" ++ (if r.Success then "true" else "false") ++
    ",\"text_list\":" ++ jsonOfTextList r.TextList ++
    ",\"total_count\":" ++ toString r.TotalCount ++
    (if r.Message = "" then "" else ",\"message\":" ++ jsonString r.Message) ++
    "\x7d"

/-- The failure exits of `imageExtractHandler`. -/
inductive ImageExtractFailure where
  | invalidType
  | missingImage
  | saveFailed
  | ocrFailed
  | storeFilterFailed
  | foodFilterFailed
deriving DecidableEq

/-- The response value each failure exit of `imageExtractHandler`
constructs: `OCRResponse{Success: false, Message: …}` — the remaining
fields keep their Go zero values, so `TextList` is the nil slice and
`TotalCount` is 0. -/
def imageExtractErrorResponse : ImageExtractFailure → OCRResponse
  | .invalidType =>
    ⟨false, .nil, 0, "type parameter must be \'store\' or \'food\'"⟩
  | .missingImage => ⟨false, .nil, 0, "Image file required"⟩
  | .saveFailed => ⟨false, .nil, 0, "Failed to save image"⟩
  | .ocrFailed => ⟨false, .nil, 0, "OCR failed"⟩
  | .storeFilterFailed => ⟨false, .nil, 0, "Store name filtering failed"⟩
  | .foodFilterFailed => ⟨false, .nil, 0, "Food name filtering failed"⟩

/-- Rune count of a string (what the spec calls character length when
it differs from the byte length). -/
def runeLen (s : String) : Nat :=
  s.data.length

/-- Per-item match score as the reconciler computes it: both sides are
lower-cased before `calculateMatchScore`. -/
def matchScoreOf (target : String) (item : TextElement) : ℚ :=
  calculateMatchScore (goToLower target) (goToLower item.Text)

/-- Specification value: the maximal match score of a candidate over
the original elements (0 when there are none). -/
def bestScore (target : String) (items : List TextElement) : ℚ :=
  items.foldl (fun m item => max m (matchScoreOf target item)) 0

/-- Specification value: the first original element attaining the
maximal match score. -/
def firstBest (target : String) (items : List TextElement) : Option TextElement :=
  items.find? fun item => matchScoreOf target item == bestScore target items

/-- The cleanup the reconciler applies to one comma-separated
candidate: trim whitespace, then trim surrounding quotes. -/
def cleanCandidate (s : String) : String :=
  goTrimCutset (trimSpace s) ['"', '\'']

/-- First-seen-wins deduplication of a string list (specification
helper). -/
def dedupStrings : List String → List String → List String
  | _, [] => []
  | seen, c :: rest =>
    if seen.contains c then dedupStrings seen rest
    else c :: dedupStrings (c :: seen) rest

/-- Specification value: the deduplicated list of cleaned, non-empty
candidates of a category answer. -/
def candidateList (filteredTexts : String) : List String :=
  dedupStrings [] (((goSplit filteredTexts ',').map cleanCandidate).filter (· ≠ ""))

/-- Specification form of the reconciler output: each candidate is
paired with the coordinates of its best-matching element, candidates
without a sufficiently similar element are dropped. -/
def reconcileSpec (items : List TextElement) (filteredTexts : String) :
    List TextElement :=
  (candidateList filteredTexts).filterMap fun c =>
    (findBestMatchAdvanced c items).map fun bm => ⟨c, bm.X, bm.Y⟩

/-- Specification form of the Deduplicator: keep an element exactly
when its lower-cased trimmed key is non-empty and unseen; elements are
kept verbatim (coordinates untouched), first seen wins. -/
def dedupeSpec : List String → List TextElement → List TextElement
  | _, [] => []
  | seen, e :: rest =>
    let key := goToLower (trimSpace e.Text)
    if key = "" ∨ seen.contains key then dedupeSpec seen rest
    else e :: dedupeSpec (key :: seen) rest

/-- The dedup key of an element. -/
def dedupKey (e : TextElement) : String :=
  goToLower (trimSpace e.Text)

/-- Byte-level normalized edit-distance similarity, worded as in the
specification: `1 − levenshtein(a,b)/max(len(a),len(b))`, with the
distance given by the reference recurrence `editDist` over the UTF-8
bytes. -/
def claimSimilarity (a b : String) : ℚ :=
  1 - (editDist (goBytes a) (goBytes b) : ℚ) / (max (goLen a) (goLen b) : ℚ)

/-- The word list of an element for word-boundary matching: fields
delimited by space, bar, hyphen, comma or period. -/
def wordsOf (s : String) : List String :=
  goFieldsFunc s fun c =>
    c == ' ' || c == '|' || c == '-' || c == ',' || c == '.'

/-- Specification form of the word-boundary rule (byte-level
similarity): some word of the element is fold-equal to the candidate or
has similarity above 0.8 to it. -/
def claimWordMatch (t s : String) : Bool :=
  (wordsOf s).any fun w =>
    goEqualFold (trimSpace w) t ||
      decide ((0.8 : ℚ) <
        claimSimilarity (goToLower (trimSpace w)) (goToLower t))

/-- Specification form of the match score of a (candidate, element)
pair, with all lengths and distances over UTF-8 bytes: 1 on
case-insensitive exact match, 0.9 on containment, 0.85 on word-boundary
match, else similarity scaled by the length ratio. -/
def claimMatchScore (cand elem : String) : ℚ :=
  let t := goToLower cand
  let s := goToLower elem
  if t = s then 1
  else if goContains s t ∨ goContains t s then 0.9
  else if claimWordMatch t s then 0.85
  else
    claimSimilarity t s * ((min (goLen t) (goLen s) : ℚ) / (max (goLen t) (goLen s) : ℚ))

/-- Character-level edit distance between two strings (code points, not
bytes). -/
def charEditDist (a b : String) : Nat :=
  editDist (a.data.map Char.toNat) (b.data.map Char.toNat)

/-- Character-level normalized edit-distance similarity, as claim C2
words it (lengths and distance over Unicode code points). -/
def claimSimilarityChars (a b : String) : ℚ :=
  1 - (charEditDist a b : ℚ) / (max (runeLen a) (runeLen b) : ℚ)

/-- Character-level word-boundary rule of claim C2. -/
def claimWordMatchChars (t s : String) : Bool :=
  (wordsOf s).any fun w =>
    goEqualFold (trimSpace w) t ||
      decide ((0.8 : ℚ) <
        claimSimilarityChars (goToLower (trimSpace w)) (goToLower t))

/-- The match score as claim C2 states it: the same piecewise scheme,
but with the Levenshtein distance and the lengths computed over Unicode
characters. -/
def claimMatchScoreChars (cand elem : String) : ℚ :=
  let t := goToLower cand
  let s := goToLower elem
  if t = s then 1
  else if goContains s t ∨ goContains t s then 0.9
  else if claimWordMatchChars t s then 0.85
  else
    claimSimilarityChars t s *
      ((min (runeLen t) (runeLen s) : ℚ) / (max (runeLen t) (runeLen s) : ℚ))

/-- Specification form of the line grouping (byte lengths): maximal
runs of consecutive short lines (≤ 10 bytes) are joined by single
spaces, longer lines stand alone. -/
def specUnits : List String → List String
  | [] => []
  | l :: rest =>
    if goLen l ≤ 10 then
      joinSpace ((l :: rest).takeWhile fun x => goLen x ≤ 10) ::
        specUnits ((l :: rest).dropWhile fun x => goLen x ≤ 10)
    else l :: specUnits rest
termination_by ls => ls.length
decreasing_by
  · rename_i h
    simp only [List.dropWhile_cons]
    rw [if_pos (by simpa using h)]
    exact Nat.lt_succ_of_le (List.dropWhile_sublist _).length_le
  · simp

/-- The line grouping as claim C7 states it, with line length measured
in characters. -/
def claimUnitsChars : List String → List String
  | [] => []
  | l :: rest =>
    if runeLen l ≤ 10 then
      joinSpace ((l :: rest).takeWhile fun x => runeLen x ≤ 10) ::
        claimUnitsChars ((l :: rest).dropWhile fun x => runeLen x ≤ 10)
    else l :: claimUnitsChars rest
termination_by ls => ls.length
decreasing_by
  · rename_i h
    simp only [List.dropWhile_cons]
    rw [if_pos (by simpa using h)]
    exact Nat.lt_succ_of_le (List.dropWhile_sublist _).length_le
  · simp

/-- The normalizer as claim C7 states it: same pipeline, but short
lines are the ones of at most 10 characters. -/
def claimNormalizeChars (rawText : String) : String :=
  if rawText = "" then ""
  else
    match validLinesOf rawText with
    | [] => ""
    | [l] => l
    | _ :: _ :: _ => joinBar (claimUnitsChars (validLinesOf rawText))

/-- The repeating-pattern property as claim C8 states it, over
characters and with no minimum length: all characters equal the first,
or the string is a prefix of length `k ≤ len/3` repeated `len/k`
times. -/
def claimRepeating (s : String) : Prop :=
  (∀ c ∈ s.data, c = s.data.headD ' ') ∨
    ∃ k, 1 ≤ k ∧ k ≤ runeLen s / 3 ∧
      s.data = (List.replicate (runeLen s / k) (s.data.take k)).flatten

/-- The significance allow-list with the single-Korean-character
entries removed (the variant of claim C10). -/
def significantShortsPruned : List String :=
  ["OK", "NO", "ON", "UP", "GO", "IN", "TO", "AT", "BY",
   "@", "#", "$", "%", "&", "*", "+", "-", "=", "?", "!"]

/-- `isSignificantShortText` against the pruned allow-list. -/
def isSignificantShortTextPruned (text : String) : Bool :=
  (!(text = "") && text.data.all Char.isDigit) ||
    significantShortsPruned.any (fun significant => text == significant)

/-- The keep decision of the noise filter with the pruned allow-list. -/
def keepTextElementPruned (elem : TextElement) : Bool :=
  let text := trimSpace elem.Text
  if goLen text < 1 then false
  else if goLen text ≤ 2 && !isSignificantShortTextPruned text then false
  else if isOnlySpecialChars text then false
  else if isRepeatingPattern text then false
  else true

/-- `filterValidTexts` with the pruned allow-list (the variant of claim
C10). -/
def filterValidTextsPruned (elements : List TextElement) : List TextElement :=
  elements.filter keepTextElementPruned

/-- The error body shape claimed for `/image/extract`:
`text_list` as an empty JSON array. -/
def claimedErrorBody (message : String) : String :=
  "\x7b\"success\":false,\"text_list\":[],\"total_count\":0,\"message\":" ++
    jsonString message ++ "\x7d"

/-- The error body shape the handler actually produces: `text_list` is
the nil slice and serializes as JSON `null`. -/
def actualErrorBody (message : String) : String :=
  "\x7b\"success\":false,\"text_list\":null,\"total_count\":0,\"message\":" ++
    jsonString message ++ "\x7d"

/-- The message string of each failure exit of `imageExtractHandler`. -/
def errorMessageOf : ImageExtractFailure → String
  | .invalidType => "type parameter must be \'store\' or \'food\'"
  | .missingImage => "Image file required"
  | .saveFailed => "Failed to save image"
  | .ocrFailed => "OCR failed"
  | .storeFilterFailed => "Store name filtering failed"
  | .foodFilterFailed => "Food name filtering failed"

/-- An engine oracle on which the `kor+eng` invocation fails (as when
the Korean language data is unavailable) while every other language
set, in particular plain `eng`, succeeds. -/
def korDataMissingEngine : EngineCall → Option String :=
  fun call => if call.langs = "kor+eng" then none else some "HELLO"

/-- The intended value of one row of the Levenshtein table: entry `j`
holds the edit distance between the reversed consumed prefix and the
reversed first `|pre| + j` bytes of the second string. -/
def levRowSpec (u pre : List Nat) : List Nat → List Nat
  | [] => [editDist u.reverse pre.reverse]
  | y :: t => editDist u.reverse pre.reverse :: levRowSpec u (pre ++ [y]) t

theorem keep_eq_pruned_of_short {t : String} (h : goLen t ≤ 2) :
    isSignificantShortText t = isSignificantShortTextPruned t := by
  have notk : ∀ e : String, goLen e = 3 → (t == e) = false := by
    intro e he
    rw [beq_eq_false_iff_ne]
    rintro rfl
    omega
  simp only [isSignificantShortText, isSignificantShortTextPruned,
    significantShorts, significantShortsPruned, List.any_cons]
  rw [notk "안" (by decide), notk "좋" (by decide), notk "나" (by decide),
    notk "다" (by decide), notk "를" (by decide), notk "을" (by decide),
    notk "의" (by decide), notk "에" (by decide), notk "로" (by decide),
    notk "과" (by decide), notk "와" (by decide)]
  simp

theorem keepTextElement_eq_pruned (e : TextElement) :
    keepTextElement e = keepTextElementPruned e := by
  unfold keepTextElement keepTextElementPruned
  simp only []
  by_cases h : goLen (trimSpace e.Text) ≤ 2
  · rw [keep_eq_pruned_of_short h]
  · simp [h]

/-- Claim C10: the short-text significance check measures length in
UTF-8 bytes, so the `len ≤ 2` branch never fires for any string whose
encoding occupies more than two bytes — in particular for any single
Hangul syllable such as `안` (3 bytes) — and `filterValidTexts` is
extensionally equal to the variant whose allow-list has the
single-Korean-character entries removed. -/
theorem C10_korean_allowlist_dead (xs : List TextElement) :
    filterValidTexts xs = filterValidTextsPruned xs ∧ goLen "안" = 3 := by
  refine ⟨?_, by decide⟩
  unfold filterValidTexts filterValidTextsPruned
  exact List.filter_congr fun e _ => keepTextElement_eq_pruned e

/-- Claim C9: the noise filter is idempotent — filtering an
already-filtered element list is a no-op. -/
theorem C9_noise_filter_idempotent (xs : List TextElement) :
    filterValidTexts (filterValidTexts xs) = filterValidTexts xs := by
  simp [filterValidTexts, List.filter_filter]

/-- Claim C5 counterexample: the `/image/extract` failure body
serializes `text_list` as JSON `null` (the nil slice), not as the empty
array the claim states; shown on the missing-image failure. -/
theorem C5_counterexample :
    marshalOCRResponse (imageExtractErrorResponse .missingImage) =
      actualErrorBody "Image file required" ∧
    marshalOCRResponse (imageExtractErrorResponse .missingImage) ≠
      claimedErrorBody "Image file required" := by
  constructor <;> decide

/-- Claim C5 (amended): every failure exit of `imageExtractHandler`
produces exactly the envelope
`{success: false, text_list: null, total_count: 0, message: string}` —
`text_list` is the zero-value nil slice and serializes as `null`, and
`total_count` serializes as 0. -/
theorem C5_error_envelope (f : ImageExtractFailure) :
    marshalOCRResponse (imageExtractErrorResponse f) =
      actualErrorBody (errorMessageOf f) := by
  cases f <;> rfl

/-- Claim C6 counterexample: on an engine for which the `kor+eng`
invocation fails (Korean data unavailable) while plain `eng` would
succeed, the adapter returns no text at all — it never issues a
primary-language-only invocation. -/
theorem C6_counterexample :
    recognizeFullImage korDataMissingEngine = "" ∧
    korDataMissingEngine ⟨"eng", "3"⟩ = some "HELLO" ∧
    korDataMissingEngine ⟨"kor+eng", "3"⟩ = none := by
  refine ⟨?_, by decide, by decide⟩
  decide

/-- Claim C6 (amended): the adapter has no language-level fallback.
Every engine invocation uses the fixed language set `kor+eng` — the
recognition result depends only on the oracle entries at `kor+eng` —
and when both PSM rungs of the ladder fail at `kor+eng` the call yields
the empty string instead of retrying with the primary language alone. -/
theorem C6_no_language_fallback :
    (∀ e1 e2 : EngineCall → Option String,
      (∀ psm, e1 ⟨"kor+eng", psm⟩ = e2 ⟨"kor+eng", psm⟩) →
      recognizeFullImage e1 = recognizeFullImage e2) ∧
    (∀ engine : EngineCall → Option String,
      engine ⟨"kor+eng", "3"⟩ = none → engine ⟨"kor+eng", "6"⟩ = none →
      recognizeFullImage engine = "") := by
  constructor
  · intro e1 e2 h
    simp only [recognizeFullImage, runTesseract, List.foldl_cons,
      List.foldl_nil, h "3", h "6"]
  · intro engine h3 h6
    simp only [recognizeFullImage, runTesseract, List.foldl_cons,
      List.foldl_nil, h3, h6]
    rfl

theorem C6_no_language_fallback_witness :
    recognizeFullImage korDataMissingEngine = "" :=
  C6_no_language_fallback.2 korDataMissingEngine (by decide) (by decide)


theorem removeDuplicates_go (xs : List TextElement) :
    ∀ (seen : List String) (out : List TextElement),
    (xs.foldl
      (fun (st : List String × List TextElement) elem =>
        let key := goToLower (trimSpace elem.Text)
        if !st.1.contains key && !(key = "") then (key :: st.1, st.2 ++ [elem])
        else st)
      (seen, out)).2 = out ++ dedupeSpec seen xs := by
  induction xs with
  | nil => intro seen out; simp [dedupeSpec]
  | cons e rest ih =>
    intro seen out
    rw [List.foldl_cons]
    cases hb : (!seen.contains (goToLower (trimSpace e.Text)) &&
        !decide (goToLower (trimSpace e.Text) = "")) with
    | false =>
      have h : goToLower (trimSpace e.Text) = "" ∨
          seen.contains (goToLower (trimSpace e.Text)) = true := by
        simp only [Bool.and_eq_false_iff, Bool.not_eq_false', List.elem_iff,
          decide_eq_true_eq] at hb
        rcases hb with hb | hb
        · exact Or.inr (List.elem_iff.mpr hb)
        · exact Or.inl hb
      simp only [hb, Bool.false_eq_true, if_false]
      rw [ih seen out, dedupeSpec, if_pos h]
    | true =>
      have h : ¬ (goToLower (trimSpace e.Text) = "" ∨
          seen.contains (goToLower (trimSpace e.Text)) = true) := by
        simp only [Bool.and_eq_true, Bool.not_eq_true', decide_eq_false_iff_not] at hb
        rintro (h1 | h1)
        · exact hb.2 h1
        · rw [hb.1] at h1; exact Bool.false_ne_true h1
      simp only [hb, if_true]
      rw [ih, dedupeSpec, if_neg h]
      simp

theorem removeDuplicates_eq_spec (xs : List TextElement) :
    removeDuplicates xs = dedupeSpec [] xs := by
  have h := removeDuplicates_go xs [] []
  simpa [removeDuplicates] using h

theorem dedupeSpec_key_unseen :
    ∀ (xs : List TextElement) (seen : List String),
    ∀ e ∈ dedupeSpec seen xs, seen.contains (dedupKey e) = false := by
  intro xs
  induction xs with
  | nil => intro seen e he; simp [dedupeSpec] at he
  | cons a rest ih =>
    intro seen e he
    rw [dedupeSpec] at he
    split at he
    · exact ih seen e he
    · rename_i h
      rcases List.mem_cons.mp he with he | he
      · subst he
        exact Bool.eq_false_iff.mpr fun hb => h (Or.inr hb)
      · have := ih _ e he
        simp only [List.contains_cons, Bool.or_eq_false_iff] at this
        exact this.2

theorem dedupeSpec_pairwise :
    ∀ (xs : List TextElement) (seen : List String),
    (dedupeSpec seen xs).Pairwise fun a b => dedupKey a ≠ dedupKey b := by
  intro xs
  induction xs with
  | nil => intro seen; simp [dedupeSpec]
  | cons a rest ih =>
    intro seen
    rw [dedupeSpec]
    split
    · exact ih seen
    · refine List.Pairwise.cons ?_ (ih _)
      intro b hb hkey
      have := dedupeSpec_key_unseen rest _ b hb
      rw [← hkey] at this
      simp only [List.contains_cons, Bool.or_eq_false_iff] at this
      have h1 : (dedupKey a == goToLower (trimSpace a.Text)) = false := this.1
      rw [beq_eq_false_iff_ne] at h1
      exact h1 rfl

theorem dedupeSpec_sublist :
    ∀ (xs : List TextElement) (seen : List String),
    (dedupeSpec seen xs).Sublist xs := by
  intro xs
  induction xs with
  | nil => intro seen; simp [dedupeSpec]
  | cons a rest ih =>
    intro seen
    rw [dedupeSpec]
    split
    · exact (ih seen).cons a
    · exact (ih _).cons₂ a

theorem foldl_max_init_le (s : TextElement → ℚ) (l : List TextElement) :
    ∀ q : ℚ, q ≤ l.foldl (fun m i => max m (s i)) q := by
  induction l with
  | nil => intro q; simp
  | cons a t ih =>
    intro q
    rw [List.foldl_cons]
    exact le_trans (le_max_left q (s a)) (ih _)

theorem score_le_bestScore (target : String) (items : List TextElement) :
    ∀ x ∈ items, matchScoreOf target x ≤ bestScore target items := by
  unfold bestScore
  generalize (0 : ℚ) = q
  induction items generalizing q with
  | nil => intro x hx; simp at hx
  | cons a t ih =>
    intro x hx
    rw [List.foldl_cons]
    rcases List.mem_cons.mp hx with rfl | hx
    · exact le_trans (le_max_right q (matchScoreOf target x)) (foldl_max_init_le _ _ _)
    · exact ih _ x hx

theorem bestScore_nonneg (target : String) (items : List TextElement) :
    0 ≤ bestScore target items :=
  foldl_max_init_le _ _ 0

theorem bestScore_append_one (target : String) (l : List TextElement) (a : TextElement) :
    bestScore target (l ++ [a]) = max (bestScore target l) (matchScoreOf target a) := by
  unfold bestScore
  rw [List.foldl_append, List.foldl_cons, List.foldl_nil]

theorem findBest_characterization (target : String) (items : List TextElement) :
    (0.3 < bestScore target items ∧
      findBestMatchAdvanced target items = firstBest target items ∧
      ∃ e, firstBest target items = some e) ∨
    (bestScore target items ≤ 0.3 ∧ findBestMatchAdvanced target items = none) := by
  unfold findBestMatchAdvanced
  suffices h :
      (0.3 < bestScore target items ∧
        items.foldl
          (fun (acc : ℚ × Option TextElement) item =>
            let score := calculateMatchScore (goToLower target) (goToLower item.Text)
            if acc.1 < score ∧ (0.3 : ℚ) < score then (score, some item) else acc)
          (0, none) = (bestScore target items, firstBest target items) ∧
        ∃ e, firstBest target items = some e) ∨
      (bestScore target items ≤ 0.3 ∧
        items.foldl
          (fun (acc : ℚ × Option TextElement) item =>
            let score := calculateMatchScore (goToLower target) (goToLower item.Text)
            if acc.1 < score ∧ (0.3 : ℚ) < score then (score, some item) else acc)
          (0, none) = (0, none)) by
    rcases h with ⟨h1, h2, e, he⟩ | ⟨h1, h2⟩
    · exact Or.inl ⟨h1, by simp only [h2], e, he⟩
    · exact Or.inr ⟨h1, by simp only [h2]⟩
  induction items using List.reverseRecOn with
  | nil =>
    right
    constructor
    · unfold bestScore; simp; norm_num
    · simp
  | append_singleton l a ih =>
    rw [List.foldl_append, List.foldl_cons, List.foldl_nil,
      bestScore_append_one]
    rcases ih with ⟨h3, heq, e, he⟩ | ⟨hle, heq⟩
    · rw [heq]
      by_cases hgt : bestScore target l < matchScoreOf target a
      · left
        have hsc : (0.3 : ℚ) < matchScoreOf target a := lt_trans h3 hgt
        have hmax : max (bestScore target l) (matchScoreOf target a) =
            matchScoreOf target a := max_eq_right (le_of_lt hgt)
        have hfb : firstBest target (l ++ [a]) = some a := by
          unfold firstBest
          rw [bestScore_append_one, hmax, List.find?_append]
          have hnone : l.find? (fun item =>
              matchScoreOf target item == matchScoreOf target a) = none := by
            rw [List.find?_eq_none]
            intro x hx hbeq
            have h1 := score_le_bestScore target l x hx
            rw [eq_of_beq hbeq] at h1
            exact absurd h1 (not_le.mpr hgt)
          rw [hnone]
          simp [List.find?]
        rw [hmax, hfb]
        refine ⟨hsc, ?_, a, rfl⟩
        have hc : bestScore target l <
            calculateMatchScore (goToLower target) (goToLower a.Text) ∧
            (0.3 : ℚ) < calculateMatchScore (goToLower target) (goToLower a.Text) :=
          ⟨hgt, hsc⟩
        rw [if_pos hc]
        rfl
      · left
        push_neg at hgt
        have hmax : max (bestScore target l) (matchScoreOf target a) =
            bestScore target l := max_eq_left hgt
        have hfb : firstBest target (l ++ [a]) = some e := by
          unfold firstBest
          rw [bestScore_append_one, hmax, List.find?_append]
          unfold firstBest at he
          rw [he]
          rfl
        rw [hmax, hfb]
        refine ⟨h3, ?_, e, rfl⟩
        have hcond : ¬ (bestScore target l <
            calculateMatchScore (goToLower target) (goToLower a.Text) ∧
            (0.3 : ℚ) < calculateMatchScore (goToLower target) (goToLower a.Text)) := by
          intro hc
          exact absurd hc.1 (not_lt.mpr hgt)
        simp only [if_neg hcond]
        rw [← he]
    · rw [heq]
      by_cases h3 : (0.3 : ℚ) < matchScoreOf target a
      · left
        have hgt : (0 : ℚ) < matchScoreOf target a := lt_trans (by norm_num) h3
        have hmax : max (bestScore target l) (matchScoreOf target a) =
            matchScoreOf target a := max_eq_right (le_trans hle (le_of_lt h3))
        have hfb : firstBest target (l ++ [a]) = some a := by
          unfold firstBest
          rw [bestScore_append_one, hmax, List.find?_append]
          have hnone : l.find? (fun item =>
              matchScoreOf target item == matchScoreOf target a) = none := by
            rw [List.find?_eq_none]
            intro x hx hbeq
            have h1 := score_le_bestScore target l x hx
            rw [eq_of_beq hbeq] at h1
            exact absurd (lt_of_lt_of_le h3 (le_trans h1 hle)) (by norm_num)
          rw [hnone]
          simp [List.find?]
        rw [hmax, hfb]
        refine ⟨h3, ?_, a, rfl⟩
        have hc : (0 : ℚ) <
            calculateMatchScore (goToLower target) (goToLower a.Text) ∧
            (0.3 : ℚ) < calculateMatchScore (goToLower target) (goToLower a.Text) :=
          ⟨hgt, h3⟩
        rw [if_pos hc]
        rfl
      · right
        push_neg at h3
        constructor
        · exact max_le hle h3
        · have hcond : ¬ ((0 : ℚ) <
              calculateMatchScore (goToLower target) (goToLower a.Text) ∧
              (0.3 : ℚ) < calculateMatchScore (goToLower target) (goToLower a.Text)) := by
            intro hc
            exact absurd hc.2 (not_lt.mpr h3)
          simp only [if_neg hcond]

theorem findBest_none (target : String) (items : List TextElement)
    (h : bestScore target items ≤ 0.3) :
    findBestMatchAdvanced target items = none := by
  rcases findBest_characterization target items with ⟨h1, _, _⟩ | ⟨_, h2⟩
  · exact absurd h (not_le.mpr h1)
  · exact h2

theorem findBest_eq_firstBest (target : String) (items : List TextElement)
    (h : 0.3 < bestScore target items) :
    findBestMatchAdvanced target items = firstBest target items := by
  rcases findBest_characterization target items with ⟨_, h2, _⟩ | ⟨h1, _⟩
  · exact h2
  · exact absurd h (not_lt.mpr h1)

theorem findBest_mem (target : String) (items : List TextElement)
    (bm : TextElement) (h : findBestMatchAdvanced target items = some bm) :
    bm ∈ items := by
  rcases findBest_characterization target items with ⟨_, h2, _⟩ | ⟨_, h2⟩
  · rw [h2] at h
    exact List.mem_of_find?_eq_some h
  · rw [h2] at h
    exact absurd h (by simp)

theorem fta_go (items : List TextElement) (cands : List String) :
    ∀ (Sf Ss : List String) (out : List TextElement),
    (∀ c : String, Sf.contains c = true → Ss.contains c = true) →
    (∀ c : String, Ss.contains c = true → Sf.contains c = false →
      findBestMatchAdvanced c items = none) →
    (cands.foldl
      (fun (st : List String × List TextElement) filteredText =>
        let cleanText := goTrimCutset (trimSpace filteredText) ['"', '\'']
        if cleanText = "" ∨ st.1.contains cleanText then st
        else
          match findBestMatchAdvanced cleanText items with
          | some bestMatch =>
            (cleanText :: st.1, st.2 ++ [⟨cleanText, bestMatch.X, bestMatch.Y⟩])
          | none => st)
      (Sf, out)).2
    = out ++ ((dedupStrings Ss ((cands.map cleanCandidate).filter (· ≠ ""))).filterMap
        fun c => (findBestMatchAdvanced c items).map fun bm => ⟨c, bm.X, bm.Y⟩) := by
  induction cands with
  | nil => intro Sf Ss out h1 h2; simp [dedupStrings]
  | cons p rest ih =>
    intro Sf Ss out h1 h2
    rw [List.foldl_cons, List.map_cons]
    by_cases hc : cleanCandidate p = ""
    · rw [List.filter_cons_of_neg (by simpa using hc)]
      have hcond : cleanCandidate p = "" ∨ Sf.contains (cleanCandidate p) = true :=
        Or.inl hc
      simp only [cleanCandidate] at hcond
      simp only [if_pos hcond]
      exact ih Sf Ss out h1 h2
    · rw [List.filter_cons_of_pos (by simpa using hc)]
      by_cases hsf : Sf.contains (cleanCandidate p) = true
      · have hss := h1 _ hsf
        rw [dedupStrings, if_pos hss]
        have hcond : cleanCandidate p = "" ∨ Sf.contains (cleanCandidate p) = true :=
          Or.inr hsf
        simp only [cleanCandidate] at hcond
        simp only [if_pos hcond]
        exact ih Sf Ss out h1 h2
      · have hsf' : Sf.contains (cleanCandidate p) = false :=
          Bool.eq_false_iff.mpr hsf
        have hcond : ¬ (cleanCandidate p = "" ∨
            Sf.contains (cleanCandidate p) = true) := by
          rintro (h | h)
          · exact hc h
          · exact hsf h
        simp only [cleanCandidate] at hcond
        simp only [if_neg hcond]
        by_cases hss : Ss.contains (cleanCandidate p) = true
        · rw [dedupStrings, if_pos hss]
          have hnone := h2 _ hss hsf'
          simp only [cleanCandidate] at hnone
          simp only [hnone]
          exact ih Sf Ss out h1 h2
        · have hss' : Ss.contains (cleanCandidate p) = false :=
            Bool.eq_false_iff.mpr hss
          rw [dedupStrings, if_neg hss]
          cases hfb : findBestMatchAdvanced (cleanCandidate p) items with
          | some bm =>
            have hfb2 : findBestMatchAdvanced
                (goTrimCutset (trimSpace p) ['"', '\'']) items = some bm := hfb
            rw [hfb2, List.filterMap_cons, hfb]
            simp only [Option.map_some']
            conv_rhs => rw [List.append_cons]
            refine ih (cleanCandidate p :: Sf) (cleanCandidate p :: Ss)
              (out ++ [⟨cleanCandidate p, bm.X, bm.Y⟩]) ?_ ?_
            · intro c hcc
              simp only [List.contains_cons] at hcc ⊢
              rcases Bool.or_eq_true_iff.mp hcc with h | h
              · rw [h]; simp
              · rw [h1 c h]; simp
            · intro c hcc hcf
              simp only [List.contains_cons, Bool.or_eq_false_iff] at hcf
              simp only [List.contains_cons] at hcc
              rcases Bool.or_eq_true_iff.mp hcc with h | h
              · rw [beq_iff_eq] at h
                rw [beq_eq_false_iff_ne] at hcf
                exact absurd h hcf.1
              · exact h2 c h hcf.2
          | none =>
            have hfb2 : findBestMatchAdvanced
                (goTrimCutset (trimSpace p) ['"', '\'']) items = none := hfb
            rw [hfb2, List.filterMap_cons, hfb]
            simp only [Option.map_none']
            refine ih Sf (cleanCandidate p :: Ss) out ?_ ?_
            · intro c hcc
              simp only [List.contains_cons]
              rw [h1 c hcc]
              simp
            · intro c hcc hcf
              simp only [List.contains_cons] at hcc
              rcases Bool.or_eq_true_iff.mp hcc with h | h
              · rw [beq_iff_eq] at h
                subst h
                exact hfb
              · exact h2 c h hcf

theorem filterTextItemsAdvanced_eq (items : List TextElement) (ft : String) :
    filterTextItemsAdvanced items ft =
      if ft = "NONE" ∨ trimSpace ft = "" then [] else reconcileSpec items ft := by
  unfold filterTextItemsAdvanced
  split
  · rfl
  · have h := fta_go items (goSplit ft ',') [] [] []
      (by intro c hc; simp at hc) (by intro c hc; simp at hc)
    simp only [List.nil_append] at h
    exact h

theorem dedupStrings_unseen :
    ∀ (l seen : List String), ∀ c ∈ dedupStrings seen l, seen.contains c = false := by
  intro l
  induction l with
  | nil => intro seen c hc; simp [dedupStrings] at hc
  | cons a rest ih =>
    intro seen c hc
    rw [dedupStrings] at hc
    split at hc
    · exact ih seen c hc
    · rename_i h
      rcases List.mem_cons.mp hc with rfl | hc
      · exact Bool.eq_false_iff.mpr h
      · have := ih _ c hc
        simp only [List.contains_cons, Bool.or_eq_false_iff] at this
        exact this.2

theorem dedupStrings_pairwise :
    ∀ (l seen : List String), (dedupStrings seen l).Pairwise (· ≠ ·) := by
  intro l
  induction l with
  | nil => intro seen; simp [dedupStrings]
  | cons a rest ih =>
    intro seen
    rw [dedupStrings]
    split
    · exact ih seen
    · refine List.Pairwise.cons ?_ (ih _)
      intro b hb hab
      have := dedupStrings_unseen rest _ b hb
      subst hab
      simp at this


/-- Claim C1: for every comma-separated candidate of the category
answer (trimmed of quotes and whitespace) that is not the sentinel,
not empty and not already consumed, the reconciler scores it against
every original element; when the maximal score exceeds 0.3 the output
receives exactly one element carrying the candidate text and the
best-matching original coordinates, and when no score exceeds 0.3 the
candidate is dropped.  Stated as: the best-match search returns `none`
exactly when no element scores above 0.3 and otherwise returns the
first maximal-score element, and the reconciler output is the
candidate list filter-mapped through that search. -/
theorem C1_semantic_reconciler (items : List TextElement) (answer target : String) :
    (bestScore target items ≤ 0.3 → findBestMatchAdvanced target items = none) ∧
    (0.3 < bestScore target items →
      findBestMatchAdvanced target items = firstBest target items) ∧
    (answer ≠ "NONE" → trimSpace answer ≠ "" →
      filterTextItemsAdvanced items answer = reconcileSpec items answer) := by
  refine ⟨findBest_none target items, findBest_eq_firstBest target items, ?_⟩
  intro h1 h2
  rw [filterTextItemsAdvanced_eq, if_neg (by tauto)]

theorem bestScore_single (t : String) (e : TextElement) :
    bestScore t [e] = max 0 (matchScoreOf t e) := by
  unfold bestScore
  rw [List.foldl_cons, List.foldl_nil]

theorem findBest_single (t : String) (e : TextElement) (q : ℚ)
    (hq : matchScoreOf t e = q) (h3 : (0.3 : ℚ) < q) :
    findBestMatchAdvanced t [e] = some e := by
  have hb : bestScore t [e] = q := by
    rw [bestScore_single, hq]
    exact max_eq_right (le_trans (by norm_num) (le_of_lt h3))
  rw [findBest_eq_firstBest t [e] (by rw [hb]; exact h3)]
  unfold firstBest
  rw [List.find?_cons_of_pos]
  rw [hb, hq]
  exact beq_self_eq_true q

theorem score_mac :
    matchScoreOf "맥도날드" ⟨"맥도냘드", 10, 20⟩ = 0.85 := by
  unfold matchScoreOf
  have hlow1 : goToLower "맥도날드" = "맥도날드" := by decide
  have hlow2 : goToLower "맥도냘드" = "맥도냘드" := by decide
  simp only [hlow1, hlow2]
  rw [calculateMatchScore]
  rw [if_neg (by decide)]
  rw [if_neg (by decide)]
  rw [if_pos ?wb]
  case wb =>
    rw [isWordBoundaryMatch]
    have hw : goFieldsFunc "맥도냘드" (fun c =>
        c == ' ' || c == '|' || c == '-' || c == ',' || c == '.') =
        ["맥도냘드"] := by decide
    simp only [hw, List.any_cons, List.any_nil, Bool.or_false]
    have ht : trimSpace "맥도냘드" = "맥도냘드" := by decide
    simp only [ht, hlow2, hlow1]
    have hef : goEqualFold "맥도냘드" "맥도날드" = false := by decide
    rw [hef]
    have hsim : calculateTextSimilarity "맥도냘드" "맥도날드" = 5 / 6 := by
      rw [calculateTextSimilarity]
      rw [if_neg (by decide)]
      rw [if_neg (by decide)]
      have hlev : levenshteinDistance "맥도냘드" "맥도날드" = 2 := by decide
      have hg1 : goLen "맥도냘드" = 12 := by decide
      have hg2 : goLen "맥도날드" = 12 := by decide
      rw [hlev, hg1, hg2]
      norm_num
    rw [hsim]
    rw [decide_eq_true (by norm_num : (0.8 : ℚ) < 5 / 6)]
    simp

theorem C1_semantic_reconciler_witness :
    findBestMatchAdvanced "맥도날드" [⟨"맥도냘드", 10, 20⟩] =
      some ⟨"맥도냘드", 10, 20⟩ ∧
    filterTextItemsAdvanced [⟨"맥도냘드", 10, 20⟩] "맥도날드" =
      [⟨"맥도날드", 10, 20⟩] := by
  have h := C1_semantic_reconciler [⟨"맥도냘드", 10, 20⟩] "맥도날드" "맥도날드"
  have hfb : findBestMatchAdvanced "맥도날드" [⟨"맥도냘드", 10, 20⟩] =
      some ⟨"맥도냘드", 10, 20⟩ :=
    findBest_single _ _ _ score_mac (by norm_num)
  refine ⟨hfb, ?_⟩
  rw [h.2.2 (by decide) (by decide)]
  unfold reconcileSpec
  have hcl : candidateList "맥도날드" = ["맥도날드"] := by decide
  rw [hcl, List.filterMap_cons, hfb]
  rfl

theorem score_refl (t : String) (e : TextElement) (h : goToLower t = goToLower e.Text) :
    matchScoreOf t e = 1 := by
  unfold matchScoreOf
  rw [h, calculateMatchScore, if_pos rfl]

/-- Claim C3 counterexample: the semantically filtered output can
contain two elements whose trimmed texts differ only by case — the
`seen` set of the reconciler is case-sensitive — so the
case-insensitive deduplication invariant fails for that list. -/
theorem C3_counterexample :
    filterTextItemsAdvanced [⟨"abc", 1, 2⟩] "ABC, abc" =
      [⟨"ABC", 1, 2⟩, ⟨"abc", 1, 2⟩] ∧
    dedupKey ⟨"ABC", 1, 2⟩ = dedupKey ⟨"abc", 1, 2⟩ := by
  constructor
  · rw [filterTextItemsAdvanced_eq, if_neg (by decide)]
    unfold reconcileSpec
    have hcl : candidateList "ABC, abc" = ["ABC", "abc"] := by decide
    rw [hcl]
    have hfb1 : findBestMatchAdvanced "ABC" [⟨"abc", 1, 2⟩] = some ⟨"abc", 1, 2⟩ :=
      findBest_single _ _ _ (score_refl _ _ (by decide)) (by norm_num)
    have hfb2 : findBestMatchAdvanced "abc" [⟨"abc", 1, 2⟩] = some ⟨"abc", 1, 2⟩ :=
      findBest_single _ _ _ (score_refl _ _ (by decide)) (by norm_num)
    rw [List.filterMap_cons, hfb1, List.filterMap_cons, hfb2]
    rfl
  · decide
/-- Claim C3 (amended): the deduplicator keeps the first occurrence
per lower-cased trimmed key verbatim (first-seen order, original
coordinates), the unfiltered pipeline output never holds two elements
with case-insensitively equal trimmed text, and the semantically
filtered output never holds two elements with identical — but possibly
case-insensitively equal — text. -/
theorem C3_dedup_invariants (xs items : List TextElement) (ft : String)
    (cols rows : Int) (contours : List Contour) (fullText : String)
    (regionText : GoRect → String) :
    removeDuplicates xs = dedupeSpec [] xs ∧
    (removeDuplicates xs).Pairwise (fun a b => dedupKey a ≠ dedupKey b) ∧
    (extractTexts cols rows contours fullText regionText).Pairwise
      (fun a b => dedupKey a ≠ dedupKey b) ∧
    (filterTextItemsAdvanced items ft).Pairwise (fun a b => a.Text ≠ b.Text) := by
  refine ⟨removeDuplicates_eq_spec xs, ?_, ?_, ?_⟩
  · rw [removeDuplicates_eq_spec]
    exact dedupeSpec_pairwise xs []
  · have hp : ∀ w : List TextElement, (filterValidTexts (removeDuplicates w)).Pairwise
        (fun a b => dedupKey a ≠ dedupKey b) := by
      intro w
      have h1 : (removeDuplicates w).Pairwise (fun a b => dedupKey a ≠ dedupKey b) := by
        rw [removeDuplicates_eq_spec]
        exact dedupeSpec_pairwise w []
      exact h1.sublist (List.filter_sublist _)
    exact hp _
  · rw [filterTextItemsAdvanced_eq]
    split
    · simp
    · refine List.Pairwise.filterMap _ ?_ (dedupStrings_pairwise _ [])
      intro a b hab x hx y hy
      simp only [Option.mem_def, Option.map_eq_some'] at hx hy
      obtain ⟨_, _, hx2⟩ := hx
      obtain ⟨_, _, hy2⟩ := hy
      rw [← hx2, ← hy2]
      simpa using hab

theorem detectTextRegions_bounds (contours : List Contour) (cols rows : Int)
    (hc : ∀ c ∈ contours, 0 ≤ c.rect.minX ∧ c.rect.minX ≤ c.rect.maxX ∧
      c.rect.maxX ≤ cols ∧ 0 ≤ c.rect.minY ∧ c.rect.minY ≤ c.rect.maxY ∧
      c.rect.maxY ≤ rows) :
    ∀ r ∈ detectTextRegions contours cols rows,
      0 ≤ r.minX ∧ r.minX + 1 ≤ r.maxX ∧ r.maxX ≤ cols ∧
      0 ≤ r.minY ∧ r.minY + 1 ≤ r.maxY ∧ r.maxY ≤ rows := by
  intro r hr
  unfold detectTextRegions at hr
  rcases List.mem_filterMap.mp hr with ⟨c, hcmem, hcr⟩
  have h := hc c hcmem
  split at hcr
  · split at hcr
    · rename_i harea hdim
      rw [Option.some_inj] at hcr
      subst hcr
      unfold GoRect.dx GoRect.dy at hdim
      unfold mkGoRect
      obtain ⟨h1, h2, h3, h4, h5, h6⟩ := h
      obtain ⟨d1, d2, d3⟩ := hdim
      refine ⟨?_, ?_, ?_, ?_, ?_, ?_⟩ <;> simp only [] <;> omega
    · exact absurd hcr (by simp)
  · exact absurd hcr (by simp)

theorem regionCenter_bounds (r : GoRect) (cols rows : Int)
    (h : 0 ≤ r.minX ∧ r.minX + 1 ≤ r.maxX ∧ r.maxX ≤ cols ∧
      0 ≤ r.minY ∧ r.minY + 1 ≤ r.maxY ∧ r.maxY ≤ rows) :
    0 ≤ (regionCenter r).1 ∧ (regionCenter r).1 < cols ∧
    0 ≤ (regionCenter r).2 ∧ (regionCenter r).2 < rows := by
  obtain ⟨h1, h2, h3, h4, h5, h6⟩ := h
  unfold regionCenter GoRect.dx GoRect.dy
  rw [Int.tdiv_eq_ediv (by omega) (by omega), Int.tdiv_eq_ediv (by omega) (by omega)]
  refine ⟨?_, ?_, ?_, ?_⟩ <;> simp only [] <;> omega

theorem mem_foldl_cond_append {α β : Type} (q : List β → α → Prop)
    [inst : ∀ acc a, Decidable (q acc a)] (v : α → β) (P : β → Prop) :
    ∀ (rs : List α) (init : List β), (∀ e ∈ init, P e) → (∀ r ∈ rs, P (v r)) →
    ∀ e ∈ rs.foldl (fun acc r => if q acc r then acc ++ [v r] else acc) init, P e := by
  intro rs
  induction rs with
  | nil => intro init h1 _ e he; exact h1 e he
  | cons r rest ih =>
    intro init h1 h2 e he
    rw [List.foldl_cons] at he
    by_cases hq : q init r
    · rw [if_pos hq] at he
      refine ih _ ?_ (fun x hx => h2 x (List.mem_cons_of_mem _ hx)) e he
      intro x hx
      rcases List.mem_append.mp hx with hx | hx
      · exact h1 x hx
      · rw [List.mem_singleton.mp hx]
        exact h2 r (List.mem_cons_self r rest)
    · rw [if_neg hq] at he
      exact ih _ h1 (fun x hx => h2 x (List.mem_cons_of_mem _ hx)) e he

/-- Claim C4: every element of the pipeline output has its coordinates
inside `[0, cols) × [0, rows)` — region elements carry the centroid of
their padding-expanded, image-clamped region, the whole-image element
carries the image centroid `(cols/2, rows/2)` — and every semantically
filtered element reuses the coordinates of some original element. -/
theorem C4_coordinate_bounds (cols rows : Int) (contours : List Contour)
    (fullText : String) (regionText : GoRect → String)
    (hcols : 1 ≤ cols) (hrows : 1 ≤ rows)
    (hc : ∀ c ∈ contours, 0 ≤ c.rect.minX ∧ c.rect.minX ≤ c.rect.maxX ∧
      c.rect.maxX ≤ cols ∧ 0 ≤ c.rect.minY ∧ c.rect.minY ≤ c.rect.maxY ∧
      c.rect.maxY ≤ rows) :
    (∀ e ∈ extractTexts cols rows contours fullText regionText,
      0 ≤ e.X ∧ e.X < cols ∧ 0 ≤ e.Y ∧ e.Y < rows) ∧
    (∀ (items : List TextElement) (answer : String),
      ∀ e ∈ filterTextItemsAdvanced items answer,
        ∃ o ∈ items, e.X = o.X ∧ e.Y = o.Y) := by
  constructor
  · intro e he
    simp only [extractTexts] at he
    have h1 : e ∈ removeDuplicates
        ((detectTextRegions contours cols rows).foldl
          (fun results region =>
            let cleanedText := cleanTesseractOutput (regionText region)
            if cleanedText ≠ "" ∧ isValidText cleanedText ∧
                ¬ isDuplicateText cleanedText results then
              results ++
                [⟨cleanedText, (regionCenter region).1, (regionCenter region).2⟩]
            else results)
          (if fullText ≠ "" ∧ cleanTesseractOutput fullText ≠ "" ∧
              isValidText (cleanTesseractOutput fullText) then
            [⟨cleanTesseractOutput fullText, Int.tdiv cols 2, Int.tdiv rows 2⟩]
          else [])) :=
      List.mem_of_mem_filter he
    rw [removeDuplicates_eq_spec] at h1
    have h2 := (dedupeSpec_sublist _ []).subset h1
    refine mem_foldl_cond_append
      (fun results region =>
        cleanTesseractOutput (regionText region) ≠ "" ∧
        isValidText (cleanTesseractOutput (regionText region)) ∧
        ¬ isDuplicateText (cleanTesseractOutput (regionText region)) results)
      (fun region => ⟨cleanTesseractOutput (regionText region),
        (regionCenter region).1, (regionCenter region).2⟩)
      (fun e => 0 ≤ e.X ∧ e.X < cols ∧ 0 ≤ e.Y ∧ e.Y < rows)
      (detectTextRegions contours cols rows) _ ?_ ?_ e h2
    · intro x hx
      split at hx
      · rw [List.mem_singleton.mp hx]
        refine ⟨?_, ?_, ?_, ?_⟩ <;>
          simp only [] <;>
          rw [Int.tdiv_eq_ediv (by omega) (by norm_num)] <;> omega
      · simp at hx
    · intro r hr
      have hb := detectTextRegions_bounds contours cols rows hc r hr
      have hcent := regionCenter_bounds r cols rows hb
      exact ⟨hcent.1, hcent.2.1, hcent.2.2.1, hcent.2.2.2⟩
  · intro items answer e he
    rw [filterTextItemsAdvanced_eq] at he
    split at he
    · simp at he
    · unfold reconcileSpec at he
      rcases List.mem_filterMap.mp he with ⟨c, _, hc2⟩
      cases hfb : findBestMatchAdvanced c items with
      | none => rw [hfb] at hc2; simp at hc2
      | some bm =>
        rw [hfb] at hc2
        simp only [Option.map_some', Option.some_inj] at hc2
        exact ⟨bm, findBest_mem c items bm hfb, by
          rw [← hc2]
          exact ⟨rfl, rfl⟩⟩

theorem C4_coordinate_bounds_witness :
    (⟨"HELLO", 50, 25⟩ : TextElement) ∈
      extractTexts 100 50 [⟨⟨10, 10, 40, 30⟩, 600⟩] "HELLO" (fun _ => "WORLD") ∧
    (0 ≤ (⟨"HELLO", 50, 25⟩ : TextElement).X ∧
      (⟨"HELLO", 50, 25⟩ : TextElement).X < 100 ∧
      0 ≤ (⟨"HELLO", 50, 25⟩ : TextElement).Y ∧
      (⟨"HELLO", 50, 25⟩ : TextElement).Y < 50) := by
  refine ⟨by decide, ?_⟩
  exact (C4_coordinate_bounds 100 50 [⟨⟨10, 10, 40, 30⟩, 600⟩] "HELLO"
    (fun _ => "WORLD") (by norm_num) (by norm_num) (by decide)).1
    ⟨"HELLO", 50, 25⟩ (by decide)

theorem groupStep_fold (ls : List String) :
    ∀ (p g : List String),
    (let st := ls.foldl groupStep (p, g)
     if st.2 = [] then st.1 else st.1 ++ [joinSpace st.2]) =
    if g = [] then p ++ specUnits ls
    else p ++ (joinSpace (g ++ ls.takeWhile fun x => goLen x ≤ 10) ::
        specUnits (ls.dropWhile fun x => goLen x ≤ 10)) := by
  induction ls with
  | nil =>
    intro p g
    simp only [List.foldl_nil, List.takeWhile_nil, List.dropWhile_nil]
    by_cases hg : g = []
    · rw [if_pos hg, if_pos hg]
      simp [specUnits]
    · rw [if_neg hg, if_neg hg]
      simp [specUnits]
  | cons l rest ih =>
    intro p g
    rw [List.foldl_cons]
    by_cases hl : goLen l ≤ 10
    · rw [show groupStep (p, g) l = (p, g ++ [l]) from by
        unfold groupStep; rw [if_pos hl]]
      rw [ih p (g ++ [l])]
      rw [if_neg (by simp)]
      rw [List.takeWhile_cons_of_pos (by simpa using hl),
        List.dropWhile_cons_of_pos (by simpa using hl)]
      by_cases hg : g = []
      · subst hg
        rw [if_pos rfl]
        rw [specUnits, if_pos hl]
        rw [List.takeWhile_cons_of_pos (by simpa using hl),
          List.dropWhile_cons_of_pos (by simpa using hl)]
        simp
      · rw [if_neg hg]
        simp
    · by_cases hg : g = []
      · subst hg
        rw [show groupStep (p, []) l = (p ++ [l], []) from by
          unfold groupStep; rw [if_neg hl, if_pos rfl]]
        rw [ih (p ++ [l]) []]
        rw [if_pos rfl, if_pos rfl]
        rw [specUnits, if_neg hl]
        simp
      · rw [show groupStep (p, g) l = (p ++ [joinSpace g, l], []) from by
          unfold groupStep; rw [if_neg hl, if_neg hg]]
        rw [ih (p ++ [joinSpace g, l]) []]
        rw [if_pos rfl, if_neg hg]
        rw [List.takeWhile_cons_of_neg (by simpa using hl),
          List.dropWhile_cons_of_neg (by simpa using hl)]
        rw [specUnits, if_neg hl]
        simp

theorem processedLinesOf_eq_specUnits (ls : List String) :
    processedLinesOf ls = specUnits ls := by
  have h := groupStep_fold ls [] []
  simpa [processedLinesOf] using h

/-- Claim C7 (amended): whenever warning removal, trimming and
empty-line dropping leave at least two lines, the normalizer output is
the maximal runs of consecutive short lines — short meaning at most 10
UTF-8 bytes, not 10 characters — joined by single spaces, long lines
standing alone, all joined by the bar separator; in particular
normalize("a\nb\nLongLineHere") = "a b | LongLineHere". -/
theorem C7_grouping (rawText : String)
    (h : 2 ≤ (validLinesOf rawText).length) :
    cleanTesseractOutput rawText = joinBar (specUnits (validLinesOf rawText)) := by
  have hne : ¬ rawText = "" := by
    intro he
    rw [he] at h
    have hv : validLinesOf "" = [] := by decide
    rw [hv] at h
    simp at h
  unfold cleanTesseractOutput
  rw [if_neg hne]
  rcases hv : validLinesOf rawText with _ | ⟨a, _ | ⟨b, t⟩⟩
  · rw [hv] at h; simp at h
  · rw [hv] at h; simp at h
  · rw [processedLinesOf_eq_specUnits]

theorem C7_grouping_witness :
    2 ≤ (validLinesOf "a\nb\nLongLineHere").length ∧
    cleanTesseractOutput "a\nb\nLongLineHere" =
      joinBar (specUnits (validLinesOf "a\nb\nLongLineHere")) ∧
    cleanTesseractOutput "a\nb\nLongLineHere" = "a b | LongLineHere" :=
  ⟨by decide, C7_grouping _ (by decide), by decide⟩

/-- Claim C7 counterexample: the short-line threshold is measured in
UTF-8 bytes, not characters: the four-character line `가나다라` occupies
12 bytes, so the normalizer emits it as its own unit, while the claimed
character-level grouping would merge it with the following short
line. -/
theorem C7_counterexample :
    cleanTesseractOutput "가나다라\nabc" = "가나다라 | abc" ∧
    claimNormalizeChars "가나다라\nabc" = "가나다라 abc" ∧
    cleanTesseractOutput "가나다라\nabc" ≠ claimNormalizeChars "가나다라\nabc" := by
  have hv : validLinesOf "가나다라\nabc" = ["가나다라", "abc"] := by decide
  have hcu : claimUnitsChars ["가나다라", "abc"] = ["가나다라 abc"] := by
    rw [claimUnitsChars]
    rw [if_pos (by decide)]
    rw [show (["가나다라", "abc"].takeWhile fun x => runeLen x ≤ 10) =
      ["가나다라", "abc"] from by decide]
    rw [show (["가나다라", "abc"].dropWhile fun x => runeLen x ≤ 10) =
      ([] : List String) from by decide]
    rw [claimUnitsChars]
    decide
  have h2 : claimNormalizeChars "가나다라\nabc" = "가나다라 abc" := by
    unfold claimNormalizeChars
    rw [if_neg (by decide), hv, hcu]
    decide
  refine ⟨by decide, h2, ?_⟩
  rw [h2]
  decide

theorem charToNat_injective : Function.Injective Char.toNat := by
  intro a b h
  unfold Char.toNat at h
  exact Char.ext (UInt32.ext h)

theorem charUtf8_ascii (c : Char) (h : c.toNat < 128) : charUtf8 c = [c.toNat] := by
  unfold charUtf8
  rw [if_pos h]

theorem asciiFlatten :
    ∀ l : List Char, (∀ c ∈ l, c.toNat < 128) →
      (l.map charUtf8).flatten = l.map Char.toNat := by
  intro l
  induction l with
  | nil => intro _; simp
  | cons c t ih =>
    intro h
    rw [List.map_cons, List.map_cons, List.flatten_cons,
      charUtf8_ascii c (h c (List.mem_cons_self c t)),
      ih fun x hx => h x (List.mem_cons_of_mem c hx)]
    rfl

theorem goBytes_ascii (s : String) (h : ∀ c ∈ s.data, c.toNat < 128) :
    goBytes s = s.data.map Char.toNat :=
  asciiFlatten s.data h

theorem allSame_iff (L : List Char) (hasc : ∀ c ∈ L, c.toNat < 128)
    (hne : L ≠ []) :
    (L.all fun c => c.toNat % 256 == (L.map Char.toNat).headD 0) = true ↔
      ∀ c ∈ L, c = L.headD ' ' := by
  rcases L with _ | ⟨hch, t⟩
  · exact absurd rfl hne
  · rw [List.all_eq_true]
    simp only [List.map_cons, List.headD_cons]
    constructor
    · intro h c hc
      have hbeq := h c hc
      rw [beq_iff_eq] at hbeq
      have hlt : c.toNat < 256 := lt_trans (hasc c hc) (by norm_num)
      rw [Nat.mod_eq_of_lt hlt] at hbeq
      exact charToNat_injective hbeq
    · intro h c hc
      rw [h c hc]
      have hlt : hch.toNat < 256 :=
        lt_trans (hasc hch (List.mem_cons_self hch t)) (by norm_num)
      rw [Nat.mod_eq_of_lt hlt]
      exact beq_self_eq_true _

theorem anyRep_iff (L : List Char) :
    (((List.range (L.length / 3)).map (· + 1)).any fun i =>
      ((List.replicate (L.length / i)
          ((L.map Char.toNat).take i)).flatten == L.map Char.toNat) &&
        decide (i * 3 ≤ L.length)) = true ↔
    ∃ k, 1 ≤ k ∧ k ≤ L.length / 3 ∧
      L = (List.replicate (L.length / k) (L.take k)).flatten := by
  rw [List.any_eq_true]
  constructor
  · rintro ⟨i, hi, hp⟩
    rw [List.mem_map] at hi
    obtain ⟨j, hj, rfl⟩ := hi
    rw [List.mem_range] at hj
    rw [Bool.and_eq_true, beq_iff_eq] at hp
    obtain ⟨heq, _⟩ := hp
    refine ⟨j + 1, by omega, by omega, ?_⟩
    rw [← List.map_take] at heq
    rw [show List.replicate (L.length / (j + 1)) (List.map Char.toNat (L.take (j + 1))) =
        List.map (List.map Char.toNat) (List.replicate (L.length / (j + 1)) (L.take (j + 1)))
      from (List.map_replicate).symm] at heq
    rw [← List.map_flatten] at heq
    exact ((List.map_injective_iff.mpr charToNat_injective) heq).symm
  · rintro ⟨k, hk1, hk3, heq⟩
    refine ⟨k, List.mem_map.mpr ⟨k - 1, List.mem_range.mpr (by omega), by omega⟩, ?_⟩
    rw [Bool.and_eq_true, beq_iff_eq]
    refine ⟨?_, ?_⟩
    · rw [← List.map_take]
      rw [show List.replicate (L.length / k) (List.map Char.toNat (L.take k)) =
          List.map (List.map Char.toNat) (List.replicate (L.length / k) (L.take k))
        from (List.map_replicate).symm]
      rw [← List.map_flatten, ← heq]
    · rw [decide_eq_true_eq]
      have := (Nat.le_div_iff_mul_le (by norm_num : 0 < 3)).mp hk3
      omega

/-- Claim C8 (amended): for ASCII strings the repeating-pattern rule
fires exactly when the string has length at least 3 and either every
character equals the first or the string is its prefix of some length
`k ≤ len/3` repeated `len/k` times; strings shorter than 3 are never
classified as repeating (which the claim itself entails by asserting
is_valid("4") = true), and the three is_valid examples hold. -/
theorem C8_repeating_pattern (s : String)
    (hascii : ∀ c ∈ s.data, c.toNat < 128) :
    (isRepeatingPattern s = true ↔
      3 ≤ runeLen s ∧
        ((∀ c ∈ s.data, c = s.data.headD ' ') ∨
          ∃ k, 1 ≤ k ∧ k ≤ runeLen s / 3 ∧
            s.data = (List.replicate (runeLen s / k) (s.data.take k)).flatten)) ∧
    keepTextElement ⟨"----", 0, 0⟩ = false ∧
    keepTextElement ⟨"ababab", 0, 0⟩ = false ∧
    keepTextElement ⟨"4", 0, 0⟩ = true := by
  refine ⟨?_, by decide, by decide, by decide⟩
  have hB : goBytes s = s.data.map Char.toNat := goBytes_ascii s hascii
  unfold isRepeatingPattern
  simp only [hB, List.length_map]
  have hrl : runeLen s = s.data.length := rfl
  by_cases h3 : s.data.length < 3
  · rw [if_pos h3]
    simp only [Bool.false_eq_true, false_iff]
    rintro ⟨h31, _⟩
    rw [hrl] at h31
    omega
  · rw [if_neg h3]
    have hne : s.data ≠ [] := by
      intro he
      rw [he] at h3
      simp at h3
    by_cases hall : (s.data.all fun c =>
        c.toNat % 256 == (s.data.map Char.toNat).headD 0) = true
    · rw [if_pos hall]
      simp only [true_iff]
      exact ⟨by omega, Or.inl ((allSame_iff s.data hascii hne).mp hall)⟩
    · rw [if_neg hall]
      rw [anyRep_iff s.data]
      rw [hrl]
      constructor
      · intro h
        exact ⟨by omega, Or.inr h⟩
      · rintro ⟨_, h | h⟩
        · exact absurd ((allSame_iff s.data hascii hne).mpr h) hall
        · exact h

/-- Claim C8 counterexample: the characterization as stated — with no
length guard and over characters — fails on the two-character Korean
string `각각` (6 UTF-8 bytes, so even a byte-length guard of 3 is met):
every character equals the first, yet the rule does not classify it as
repeating. -/
theorem C8_counterexample :
    isRepeatingPattern "각각" = false ∧ claimRepeating "각각" ∧ 3 ≤ goLen "각각" :=
  ⟨by decide, Or.inl (by decide), by decide⟩

theorem C8_repeating_pattern_witness :
    isRepeatingPattern "ababab" = true ∧ keepTextElement ⟨"4", 0, 0⟩ = true := by
  have h := C8_repeating_pattern "ababab" (by decide)
  exact ⟨h.1.mpr ⟨by decide, Or.inr ⟨2, by decide, by decide, by decide⟩⟩, h.2.2.2⟩


theorem min3_eq_min (a b c : Nat) : min3 a b c = min a (min b c) := by
  unfold min3
  split
  · rename_i h; omega
  · split <;> omega

theorem editDist_nil_left (ys : List Nat) : editDist [] ys = ys.length := by
  simp [editDist]

theorem editDist_nil_right (xs : List Nat) : editDist xs [] = xs.length := by
  cases xs <;> simp [editDist]

theorem editDist_cons_cons (x y : Nat) (xs ys : List Nat) :
    editDist (x :: xs) (y :: ys) =
      min3 (editDist xs (y :: ys) + 1) (editDist (x :: xs) ys + 1)
        (editDist xs ys + if x = y then 0 else 1) := by
  simp [editDist]

theorem editDist_snoc : ∀ (xs ys : List Nat) (x y : Nat),
    editDist (xs ++ [x]) (ys ++ [y]) =
      min3 (editDist xs (ys ++ [y]) + 1) (editDist (xs ++ [x]) ys + 1)
        (editDist xs ys + if x = y then 0 else 1) := by
  intro xs
  induction xs with
  | nil =>
    intro ys
    induction ys with
    | nil =>
      intro x y
      simp only [List.nil_append]
      rw [editDist_cons_cons]
    | cons b bs ihy =>
      intro x y
      simp only [List.nil_append, List.cons_append] at ihy ⊢
      rw [editDist_cons_cons, ihy x y, editDist_cons_cons x b [] bs]
      rw [editDist_nil_left, editDist_nil_left, editDist_nil_left,
        editDist_nil_left]
      simp only [List.length_append, List.length_cons, List.length_nil]
      simp only [min3_eq_min]
      split_ifs <;> omega
  | cons a as ihx =>
    intro ys
    induction ys with
    | nil =>
      intro x y
      simp only [List.cons_append, List.nil_append] at ihx ⊢
      have h1 := ihx [] x y
      simp only [List.nil_append] at h1
      rw [editDist_cons_cons, h1, editDist_cons_cons a y as []]
      rw [editDist_nil_right, editDist_nil_right, editDist_nil_right,
        editDist_nil_right]
      simp only [List.length_append, List.length_cons, List.length_nil]
      simp only [min3_eq_min]
      split_ifs <;> omega
    | cons b bs ihy =>
      intro x y
      simp only [List.cons_append] at ihy ⊢
      rw [editDist_cons_cons a b (as ++ [x]) (bs ++ [y])]
      have h1 := ihx (b :: bs) x y
      have h2 := ihx bs x y
      simp only [List.cons_append] at h1
      rw [h1, h2, ihy x y]
      rw [editDist_cons_cons a b as (bs ++ [y]),
        editDist_cons_cons a b (as ++ [x]) bs,
        editDist_cons_cons a b as bs]
      simp only [min3_eq_min]
      split_ifs <;>
        simp only [← min_add_add_right, Nat.add_zero] <;>
        ac_rfl

theorem editDist_reverse (xs ys : List Nat) :
    editDist xs.reverse ys.reverse = editDist xs ys := by
  generalize hn : xs.length + ys.length = n
  induction n using Nat.strong_induction_on generalizing xs ys with
  | _ n ih =>
    rcases xs with _ | ⟨x, xs'⟩
    · rw [List.reverse_nil, editDist_nil_left, editDist_nil_left,
        List.length_reverse]
    · rcases ys with _ | ⟨y, ys'⟩
      · rw [List.reverse_nil, editDist_nil_right, editDist_nil_right,
          List.length_reverse]
      · subst hn
        rw [List.reverse_cons, List.reverse_cons, editDist_snoc,
          editDist_cons_cons]
        have h1 : editDist xs'.reverse (ys'.reverse ++ [y]) =
            editDist xs' (y :: ys') := by
          rw [show ys'.reverse ++ [y] = (y :: ys').reverse from
            (List.reverse_cons y ys').symm]
          exact ih (xs'.length + (y :: ys').length) (by simp) xs' (y :: ys') rfl
        have h2 : editDist (xs'.reverse ++ [x]) ys'.reverse =
            editDist (x :: xs') ys' := by
          rw [show xs'.reverse ++ [x] = (x :: xs').reverse from
            (List.reverse_cons x xs').symm]
          exact ih ((x :: xs').length + ys'.length) (by simp) (x :: xs') ys' rfl
        have h3 : editDist xs'.reverse ys'.reverse = editDist xs' ys' :=
          ih (xs'.length + ys'.length) (by simp; omega) xs' ys' rfl
        rw [h1, h2, h3]

theorem levStep (u pre : List Nat) (x y : Nat) :
    min3 (editDist u.reverse (pre ++ [y]).reverse + 1)
      (editDist (u ++ [x]).reverse pre.reverse + 1)
      (editDist u.reverse pre.reverse + if x = y then 0 else 1) =
    editDist (u ++ [x]).reverse (pre ++ [y]).reverse := by
  rw [List.reverse_append u [x], List.reverse_append pre [y]]
  simp only [List.reverse_cons, List.reverse_nil, List.nil_append,
    List.singleton_append]
  rw [editDist_cons_cons]

theorem levRowAux_spec (x : Nat) :
    ∀ (suf : List Nat) (y : Nat) (u pre : List Nat),
    levRowAux x (editDist (u ++ [x]).reverse pre.reverse) (y :: suf)
      (levRowSpec u pre (y :: suf)) =
      levRowSpec (u ++ [x]) (pre ++ [y]) suf := by
  intro suf
  induction suf with
  | nil =>
    intro y u pre
    simp only [levRowSpec, levRowAux]
    rw [levStep]
  | cons z t ih =>
    intro y u pre
    simp only [levRowSpec, levRowAux]
    rw [levStep]
    have h := ih z u (pre ++ [y])
    simp only [levRowSpec] at h
    rw [h]

theorem levRow_full (x : Nat) (u b : List Nat) :
    (u.length + 1) :: levRowAux x (u.length + 1) b (levRowSpec u [] b) =
      levRowSpec (u ++ [x]) [] b := by
  have hlen : editDist (u ++ [x]).reverse ([] : List Nat).reverse = u.length + 1 := by
    simp [editDist_nil_right]
  cases b with
  | nil =>
    simp only [levRowSpec, levRowAux]
    simp [editDist_nil_right]
  | cons y bt =>
    rw [← hlen]
    rw [levRowAux_spec]
    simp only [levRowSpec, List.nil_append]

theorem levRows_spec (b : List Nat) :
    ∀ (asuf u : List Nat),
    levRows b asuf (u.length + 1) (levRowSpec u [] b) =
      levRowSpec (u ++ asuf) [] b := by
  intro asuf
  induction asuf with
  | nil =>
    intro u
    simp only [levRows, List.append_nil]
  | cons x t ih =>
    intro u
    simp only [levRows]
    rw [levRow_full]
    have h := ih (u ++ [x])
    simp only [List.length_append, List.length_singleton, List.append_assoc,
      List.singleton_append] at h
    exact h

theorem levRowSpec_nil_left :
    ∀ (suf pre : List Nat),
    levRowSpec [] pre suf = (List.range (suf.length + 1)).map (fun j => pre.length + j) := by
  intro suf
  induction suf with
  | nil =>
    intro pre
    simp [levRowSpec, editDist_nil_left, List.range_succ]
  | cons y t ih =>
    intro pre
    simp only [levRowSpec, List.length_cons]
    rw [ih (pre ++ [y])]
    conv_rhs => rw [List.range_succ_eq_map, List.map_cons, List.map_map]
    refine List.cons_eq_cons.mpr ⟨?_, ?_⟩
    · simp [editDist_nil_left]
    · refine List.map_congr_left ?_
      intro j hj
      simp only [List.length_append, List.length_singleton, Function.comp_apply,
        Nat.succ_eq_add_one]
      omega

theorem levRowSpec_getLastD :
    ∀ (suf u pre : List Nat) (d : Nat),
    (levRowSpec u pre suf).getLastD d = editDist u.reverse (pre ++ suf).reverse := by
  intro suf
  induction suf with
  | nil =>
    intro u pre d
    simp [levRowSpec]
  | cons y t ih =>
    intro u pre d
    simp only [levRowSpec, List.getLastD_cons]
    rw [ih u (pre ++ [y])]
    simp [List.append_assoc]

theorem levenshteinDistance_eq (s t : String) :
    levenshteinDistance s t = editDist (goBytes s) (goBytes t) := by
  simp only [levenshteinDistance]
  have hinit : List.range ((goBytes t).length + 1) = levRowSpec [] [] (goBytes t) := by
    rw [levRowSpec_nil_left]
    simp
  rw [hinit]
  have h := levRows_spec (goBytes t) (goBytes s) []
  simp only [List.length_nil, List.nil_append, Nat.zero_add] at h
  rw [h]
  rw [levRowSpec_getLastD]
  simp only [List.nil_append]
  rw [editDist_reverse]

theorem editDist_self (xs : List Nat) : editDist xs xs = 0 := by
  induction xs with
  | nil => rw [editDist_nil_left]; rfl
  | cons x t ih =>
    rw [editDist_cons_cons, if_pos rfl, ih, min3_eq_min]
    simp

theorem charUtf8_ne_nil (c : Char) : charUtf8 c ≠ [] := by
  simp only [charUtf8]
  split_ifs <;> simp

theorem goLen_eq_zero (s : String) : goLen s = 0 ↔ s = "" := by
  constructor
  · intro h
    cases s with
    | mk l =>
      cases l with
      | nil => rfl
      | cons c t =>
        exfalso
        simp only [goLen, goBytes, List.map_cons, List.flatten_cons,
          List.length_append] at h
        have hz : (charUtf8 c).length = 0 := by omega
        exact charUtf8_ne_nil c (List.length_eq_zero.mp hz)
  · intro h
    subst h
    rfl

theorem calculateTextSimilarity_eq (a b : String) :
    calculateTextSimilarity a b = claimSimilarity a b := by
  simp only [calculateTextSimilarity, claimSimilarity]
  by_cases hab : a = b
  · subst hab
    rw [if_pos rfl, editDist_self]
    simp
  · rw [if_neg hab]
    by_cases h0 : goLen a = 0 ∨ goLen b = 0
    · rw [if_pos h0]
      rcases h0 with h0 | h0
      · have ha : a = "" := (goLen_eq_zero a).mp h0
        subst ha
        have hb : goLen b ≠ 0 := fun h => hab ((goLen_eq_zero b).mp h).symm
        rw [show goBytes "" = [] from rfl, editDist_nil_left]
        rw [show goLen "" = 0 from rfl]
        rw [show (goBytes b).length = goLen b from rfl]
        have hq : (goLen b : ℚ) ≠ 0 := by exact_mod_cast hb
        simp only [Nat.cast_zero]
        rw [sup_eq_right.mpr (by positivity : (0:ℚ) ≤ (goLen b : ℚ))]
        field_simp
      · have hbe : b = "" := (goLen_eq_zero b).mp h0
        subst hbe
        have ha : goLen a ≠ 0 := fun h => hab ((goLen_eq_zero a).mp h)
        rw [show goBytes "" = [] from rfl, editDist_nil_right]
        rw [show goLen "" = 0 from rfl]
        rw [show (goBytes a).length = goLen a from rfl]
        have hq : (goLen a : ℚ) ≠ 0 := by exact_mod_cast ha
        simp only [Nat.cast_zero]
        rw [sup_eq_left.mpr (by positivity : (0:ℚ) ≤ (goLen a : ℚ))]
        field_simp
    · rw [if_neg h0, levenshteinDistance_eq]

theorem isWordBoundaryMatch_eq (t s : String) :
    isWordBoundaryMatch t s = claimWordMatch t s := by
  simp only [isWordBoundaryMatch, claimWordMatch, wordsOf]
  congr 1
  funext w
  rw [calculateTextSimilarity_eq]

theorem calculateMatchScore_eq (cand elem : String) :
    calculateMatchScore (goToLower cand) (goToLower elem) = claimMatchScore cand elem := by
  simp only [calculateMatchScore, claimMatchScore, Bool.or_eq_true]
  rw [isWordBoundaryMatch_eq, calculateTextSimilarity_eq]

theorem charEditDist_ab_val : charEditDist "가나" "가다" = 1 := by
  have hd1 : "가나".data.map Char.toNat = [44032, 45208] := by decide
  have hd2 : "가다".data.map Char.toNat = [44032, 45796] := by decide
  rw [charEditDist, hd1, hd2]
  norm_num [editDist_cons_cons, editDist_nil_left, editDist_nil_right, min3_eq_min]

theorem charEditDist_ba_val : charEditDist "가다" "가나" = 1 := by
  have hd1 : "가나".data.map Char.toNat = [44032, 45208] := by decide
  have hd2 : "가다".data.map Char.toNat = [44032, 45796] := by decide
  rw [charEditDist, hd2, hd1]
  norm_num [editDist_cons_cons, editDist_nil_left, editDist_nil_right, min3_eq_min]

theorem simChars_ab_val : claimSimilarityChars "가나" "가다" = 1 / 2 := by
  rw [claimSimilarityChars, charEditDist_ab_val]
  rw [show runeLen "가나" = 2 from by decide, show runeLen "가다" = 2 from by decide]
  norm_num

theorem simChars_ba_val : claimSimilarityChars "가다" "가나" = 1 / 2 := by
  rw [claimSimilarityChars, charEditDist_ba_val]
  rw [show runeLen "가나" = 2 from by decide, show runeLen "가다" = 2 from by decide]
  norm_num

theorem wordMatchChars_ab_val : claimWordMatchChars "가나" "가다" = false := by
  rw [claimWordMatchChars]
  have hw : wordsOf "가다" = ["가다"] := by decide
  simp only [hw, List.any_cons, List.any_nil, Bool.or_false]
  rw [show trimSpace "가다" = "가다" from by decide]
  rw [show goEqualFold "가다" "가나" = false from by decide]
  rw [show goToLower "가다" = "가다" from by decide,
    show goToLower "가나" = "가나" from by decide]
  rw [simChars_ba_val]
  rw [decide_eq_false (by norm_num : ¬ (0.8 : ℚ) < 1 / 2)]
  rfl

theorem scoreChars_ab_val : claimMatchScoreChars "가나" "가다" = 1 / 2 := by
  simp only [claimMatchScoreChars]
  rw [show goToLower "가나" = "가나" from by decide,
    show goToLower "가다" = "가다" from by decide]
  rw [if_neg (by decide)]
  rw [if_neg (by decide)]
  rw [if_neg (by simp [wordMatchChars_ab_val])]
  rw [simChars_ab_val]
  rw [show runeLen "가나" = 2 from by decide, show runeLen "가다" = 2 from by decide]
  norm_num

theorem simBytes_ba_val : calculateTextSimilarity "가다" "가나" = 2 / 3 := by
  rw [calculateTextSimilarity]
  rw [if_neg (by decide)]
  rw [if_neg (by decide)]
  rw [show levenshteinDistance "가다" "가나" = 2 from by decide]
  rw [show goLen "가다" = 6 from by decide, show goLen "가나" = 6 from by decide]
  norm_num

theorem simBytes_ab_val : calculateTextSimilarity "가나" "가다" = 2 / 3 := by
  rw [calculateTextSimilarity]
  rw [if_neg (by decide)]
  rw [if_neg (by decide)]
  rw [show levenshteinDistance "가나" "가다" = 2 from by decide]
  rw [show goLen "가다" = 6 from by decide, show goLen "가나" = 6 from by decide]
  norm_num

theorem scoreBytes_ab_val : calculateMatchScore (goToLower "가나") (goToLower "가다") = 2 / 3 := by
  rw [show goToLower "가나" = "가나" from by decide,
    show goToLower "가다" = "가다" from by decide]
  rw [calculateMatchScore]
  rw [if_neg (by decide)]
  rw [if_neg (by decide)]
  rw [if_neg ?wb]
  case wb =>
    rw [isWordBoundaryMatch]
    have hw : goFieldsFunc "가다" (fun c =>
        c == ' ' || c == '|' || c == '-' || c == ',' || c == '.') =
        ["가다"] := by decide
    simp only [hw, List.any_cons, List.any_nil, Bool.or_false]
    rw [show trimSpace "가다" = "가다" from by decide]
    rw [show goEqualFold "가다" "가나" = false from by decide]
    rw [show goToLower "가다" = "가다" from by decide,
      show goToLower "가나" = "가나" from by decide]
    rw [simBytes_ba_val]
    rw [decide_eq_false (by norm_num : ¬ (0.8 : ℚ) < 2 / 3)]
    simp
  rw [simBytes_ab_val]
  rw [show goLen "가나" = 6 from by decide, show goLen "가다" = 6 from by decide]
  norm_num

/-- C2 (corrected): the match score follows the claimed 1 / 0.9 / 0.85 /
similarity-times-length-ratio ladder, but the Levenshtein distance and
all lengths are computed over raw UTF-8 bytes, not Unicode characters:
the dynamic-programming table in `levenshteinDistance` computes exactly
the reference edit distance `editDist` of the two byte sequences, and
the reconciler score `matchScoreOf` coincides with the byte-level
specification `claimMatchScore`. -/
theorem C2_match_score :
    (∀ s t : String, levenshteinDistance s t = editDist (goBytes s) (goBytes t)) ∧
    (∀ target : String, ∀ item : TextElement,
      matchScoreOf target item = claimMatchScore target item.Text) := by
  refine ⟨levenshteinDistance_eq, ?_⟩
  intro target item
  rw [matchScoreOf]
  exact calculateMatchScore_eq target item.Text

/-- C2 counterexample: on the pair ("가나", "가다") the program computes
the byte-level score 2/3, while the character-level ("Unicode-safe
string slicing") reading of the claim prescribes 1/2, so the original
claim is false as stated. -/
theorem C2_counterexample :
    calculateMatchScore (goToLower "가나") (goToLower "가다") = 2 / 3 ∧
    claimMatchScoreChars "가나" "가다" = 1 / 2 ∧
    calculateMatchScore (goToLower "가나") (goToLower "가다") ≠
      claimMatchScoreChars "가나" "가다" := by
  refine ⟨scoreBytes_ab_val, scoreChars_ab_val, ?_⟩
  rw [scoreBytes_ab_val, scoreChars_ab_val]
  norm_num
